import Mathlib

/-!
# Verification of the cista serialization spec

The repository ships a single-header C++ serialization engine.  Only the
filesystem adapter (`include/cista/io.h`) and the README are present in the
source tree; the core engine (offset pointers, serialization /
deserialization contexts, the graph traversal) is described by the design
document.  Every definition below that is marked `Modelled from the spec:`
is a shallow embedding of that described algorithm; the io layer follows
the shape of `include/cista/io.h`.

Design: memory cells are modelled at slot granularity.  A cell either holds
raw data (scalars, padding, string payload bytes, size fields), a
self-relative pointer slot storing a signed delta (`0` encodes null), a
placeholder for a pending pointer patch, or - after deserialization - an
absolute pointer.  Source object graphs are modelled as values `Val`:
unique-ownership handles carry their pointee inline (ownership is a tree),
raw pointers refer to the label (source address) of a unique-owned object,
which is how cyclic and shared graphs arise.
-/

namespace Cista

/-- One slot of the (de)serialization buffer.
`raw` holds plain data bytes/words, `delta` is a serialized self-relative
pointer slot (0 = null), `phold` is the placeholder left for a pending
forward-pointer patch, and `ptr` is a resolved absolute pointer produced by
deserialization. -/
inductive Cell : Type where
  | raw : Nat → Cell
  | delta : Int → Cell
  | phold : Cell
  | ptr : Option Nat → Cell
deriving DecidableEq, Repr

/-- Modelled from the spec: a source object graph.  Unique handles own their
pointee inline (`uniq`); raw pointers (`rawptr`) reference the label of a
unique-owned object; `pad` is an explicit spare/padding byte of an
aggregate; strings and vectors carry their payload. -/
inductive Val : Type where
  | scalar : Nat → Val
  | pad : Nat → Val
  | rawptr : Option Nat → Val
  | uniq : Option (Nat × Val) → Val
  | vstr : List Nat → Val
  | vstruct : List Val → Val
  | vvec : List Val → Val

mutual

/-- Slot footprint of a value: scalars, padding bytes and pointer slots take
one cell, a string header two cells (offset, size), a vector header three
cells (offset, size, capacity), aggregates are laid out field after field
(with at least one cell, mirroring `sizeof` of an empty struct). -/
def sizeOfVal : Val → Nat
  | .scalar _ => 1
  | .pad _ => 1
  | .rawptr _ => 1
  | .uniq _ => 1
  | .vstr _ => 2
  | .vstruct fs => Nat.max 1 (sizeOfList fs)
  | .vvec _ => 3

/-- Total slot footprint of a field list. -/
def sizeOfList : List Val → Nat
  | [] => 0
  | v :: vs => sizeOfVal v + sizeOfList vs

end

mutual

/-- Labels (source addresses) of all unique-owned objects in a graph. -/
def uniqLabels : Val → List Nat
  | .scalar _ => []
  | .pad _ => []
  | .rawptr _ => []
  | .uniq none => []
  | .uniq (some (l, v)) => l :: uniqLabels v
  | .vstr _ => []
  | .vstruct fs => uniqLabelsL fs
  | .vvec es => uniqLabelsL es

/-- Labels of unique-owned objects in a list of values. -/
def uniqLabelsL : List Val → List Nat
  | [] => []
  | v :: vs => uniqLabels v ++ uniqLabelsL vs

end

mutual

/-- Labels referenced by raw pointers in a graph. -/
def rawLabels : Val → List Nat
  | .scalar _ => []
  | .pad _ => []
  | .rawptr none => []
  | .rawptr (some l) => [l]
  | .uniq none => []
  | .uniq (some (_, v)) => rawLabels v
  | .vstr _ => []
  | .vstruct fs => rawLabelsL fs
  | .vvec es => rawLabelsL es

/-- Labels referenced by raw pointers in a list of values. -/
def rawLabelsL : List Val → List Nat
  | [] => []
  | v :: vs => rawLabels v ++ rawLabelsL vs

end

/-- The label targeted by a raw pointer sitting in the very first cell of a
value's layout, if any.  Used to state the spec's "an object may not contain
an offset pointer whose target is itself" restriction (a self-targeting
slot would store delta 0, the null encoding). -/
def headRawLabel : Val → Option Nat
  | .rawptr (some l) => some l
  | .vstruct (f :: _) => headRawLabel f
  | _ => none

mutual

/-- Modelled from the spec: no unique-owned object may start with a raw
pointer targeting that very object (self-pointing slots are forbidden for
non-null use because delta 0 encodes null). -/
def noSelfPoint : Val → Bool
  | .scalar _ => true
  | .pad _ => true
  | .rawptr _ => true
  | .uniq none => true
  | .uniq (some (l, v)) => (headRawLabel v ≠ some l) && noSelfPoint v
  | .vstr _ => true
  | .vstruct fs => noSelfPointL fs
  | .vvec es => noSelfPointL es

/-- `noSelfPoint` over a list of values. -/
def noSelfPointL : List Val → Bool
  | [] => true
  | v :: vs => noSelfPoint v && noSelfPointL vs

end

/-- Well-formed source graph: unique ownership is exclusive (labels are
pairwise distinct), every raw pointer targets an object owned by some
unique handle reachable from the root, and no object starts with a raw
pointer to itself. -/
def wf (g : Val) : Prop :=
  (uniqLabels g).Nodup ∧ (∀ l ∈ rawLabels g, l ∈ uniqLabels g) ∧
    noSelfPoint g = true

instance (g : Val) : Decidable (wf g) := by
  unfold wf; infer_instance

/-! ## Serialization context (spec section 4.3) -/

/-- Modelled from the spec: serialization context state.  `buf` is the
append-only output buffer, `vis` the visited map from source address
(label) to assigned offset, `pending` the queue of
`(origin_label, slot_offset)` forward-pointer patches. -/
structure SerCtx : Type where
  buf : List Cell
  vis : List (Nat × Nat)
  pending : List (Nat × Nat)
deriving Repr

/-- Association-list lookup used for the visited map. -/
def lookupV (vis : List (Nat × Nat)) (l : Nat) : Option Nat :=
  match vis with
  | [] => none
  | (k, o) :: rest => if k = l then some o else lookupV rest l

/-- Overwrite the cell at index `i` (no-op out of range); the context
operation `overwrite(offset, value)` of the spec. -/
def upd : List Cell → Nat → Cell → List Cell
  | [], _, _ => []
  | _ :: cs, 0, c => c :: cs
  | x :: cs, n + 1, c => x :: upd cs n c

/-- Overwrite one buffer cell of the context. -/
def setCell (ctx : SerCtx) (i : Nat) (c : Cell) : SerCtx :=
  { ctx with buf := upd ctx.buf i c }

/-- Modelled from the spec: `write` of the serialization context at slot
granularity - reserve `n` fresh cells at the end of the buffer and return
the start offset. -/
def reserve (ctx : SerCtx) (n : Nat) : Nat × SerCtx :=
  (ctx.buf.length, { ctx with buf := ctx.buf ++ List.replicate n (.raw 0) })

/-- Write a string payload byte-by-byte into already reserved cells. -/
def writePayload (ctx : SerCtx) (p : Nat) : List Nat → SerCtx
  | [] => ctx
  | b :: bs => writePayload (setCell ctx p (.raw b)) (p + 1) bs

/-! ## Serializer (spec sections 4.4 and 9) -/

mutual

/-- Modelled from the spec: graph traversal and emission (spec section 4.4).
`fixVal v off ctx` serializes value `v` into its already reserved slots
`[off, off + sizeOfVal v)`:
scalars and padding are copied raw; a null pointer slot stores delta 0; a
raw pointer consults the visited map and either stores the self-relative
delta or enqueues a pending patch, leaving a placeholder; a unique handle
reserves its pointee's block, records it in the visited map *before*
recursing (spec section 9, so back-edges resolve), patches its own slot and
recurses; a string appends its payload and stores a
`(self-relative offset, size)` header; a vector reserves one contiguous
block for all elements, recursively serializes them there and stores an
`(offset, size, capacity)` header. -/
def fixVal (v : Val) (off : Nat) (ctx : SerCtx) : SerCtx :=
  match v with
  | .scalar n => setCell ctx off (.raw n)
  | .pad b => setCell ctx off (.raw b)
  | .rawptr none => setCell ctx off (.delta 0)
  | .rawptr (some l) =>
      match lookupV ctx.vis l with
      | some o => setCell ctx off (.delta ((o : Int) - (off : Int)))
      | none =>
          let ctx1 := setCell ctx off .phold
          { ctx1 with pending := (l, off) :: ctx1.pending }
  | .uniq none => setCell ctx off (.delta 0)
  | .uniq (some (l, v')) =>
      match lookupV ctx.vis l with
      | some o => setCell ctx off (.delta ((o : Int) - (off : Int)))
      | none =>
          let r := reserve ctx (sizeOfVal v')
          let o := r.1
          let ctx1 := { r.2 with vis := (l, o) :: r.2.vis }
          let ctx2 := setCell ctx1 off (.delta ((o : Int) - (off : Int)))
          fixVal v' o ctx2
  | .vstr bytes =>
      match bytes with
      | [] => setCell (setCell ctx off (.delta 0)) (off + 1) (.raw 0)
      | b :: bs =>
          let r := reserve ctx (b :: bs).length
          let p := r.1
          let ctx1 := writePayload r.2 p (b :: bs)
          setCell (setCell ctx1 off (.delta ((p : Int) - (off : Int))))
            (off + 1) (.raw (b :: bs).length)
  | .vstruct fs => fixList fs off ctx
  | .vvec es =>
      match es with
      | [] =>
          setCell (setCell (setCell ctx off (.delta 0)) (off + 1) (.raw 0))
            (off + 2) (.raw 0)
      | e :: es' =>
          let r := reserve ctx (sizeOfList (e :: es'))
          let p := r.1
          let ctx1 := fixList (e :: es') p r.2
          setCell
            (setCell (setCell ctx1 off (.delta ((p : Int) - (off : Int))))
              (off + 1) (.raw (e :: es').length))
            (off + 2) (.raw (e :: es').length)

/-- Serialize a field (or vector element) list at consecutive offsets. -/
def fixList (vs : List Val) (off : Nat) (ctx : SerCtx) : SerCtx :=
  match vs with
  | [] => ctx
  | v :: vs' => fixList vs' (off + sizeOfVal v) (fixVal v off ctx)

end

/-- Modelled from the spec: after the root traversal the context drains
`pending`: each entry's origin is looked up in the (now populated) visited
map and the slot is overwritten with the resolved self-relative delta;
an unresolvable origin is an error. -/
def drain (vis : List (Nat × Nat)) : List (Nat × Nat) → List Cell →
    Option (List Cell)
  | [], buf => some buf
  | (l, s) :: rest, buf =>
      match lookupV vis l with
      | some o => drain vis rest (upd buf s (.delta ((o : Int) - (s : Int))))
      | none => none

/-- Modelled from the spec: root procedure - reserve space for the root
object, recursively serialize it, drain pending.  Returns the buffer and
the final visited map. -/
def serializeG (g : Val) : Option (List Cell × List (Nat × Nat)) :=
  let r := reserve ⟨[], [], []⟩ (sizeOfVal g)
  let ctx := fixVal g r.1 r.2
  match drain ctx.vis ctx.pending ctx.buf with
  | some buf => some (buf, ctx.vis)
  | none => none

/-! ## Deserializer (spec section 4.6) -/

/-- Modelled from the spec: deserialization of one slot - a pointer slot
storing delta 0 resolves to null, any other delta `d` to the absolute
offset `slot + d`; data cells are left untouched. -/
def resolveCell (s : Nat) : Cell → Cell
  | .delta d => if d = 0 then .ptr none else .ptr (some ((s : Int) + d).toNat)
  | c => c

/-- Deserialize all cells starting at slot index `s`. -/
def deserializeFrom (s : Nat) : List Cell → List Cell
  | [] => []
  | c :: cs => resolveCell s c :: deserializeFrom (s + 1) cs

/-- Modelled from the spec: the unchecked deserialization pass - walk the
buffer, replacing every stored self-relative delta with the resolved
absolute offset. -/
def deserializeG (buf : List Cell) : List Cell :=
  deserializeFrom 0 buf

/-! ## Structural correspondence between source graph and buffers -/

/-- The string payload `bytes` is stored raw at offset `p`. -/
def payloadAt (buf : List Cell) (p : Nat) : List Nat → Prop
  | [] => True
  | b :: bs => buf[p]? = some (.raw b) ∧ payloadAt buf (p + 1) bs

mutual

/-- Structural equality between the source value `v` and the deserialized
buffer `buf` at offset `off`, relative to the visited map `vis`:
field values agree cell by cell, every pointer slot holds the absolute
offset assigned to its source target by `vis` (so aliased source pointers
resolve to a single object and cycles are reproduced), unique pointees
match recursively at their assigned offset, and string/vector headers
describe their payload. -/
def matchesV (vis : List (Nat × Nat)) (buf : List Cell) (off : Nat) :
    Val → Prop
  | .scalar n => buf[off]? = some (.raw n)
  | .pad b => buf[off]? = some (.raw b)
  | .rawptr none => buf[off]? = some (.ptr none)
  | .rawptr (some l) =>
      ∃ o, lookupV vis l = some o ∧ buf[off]? = some (.ptr (some o))
  | .uniq none => buf[off]? = some (.ptr none)
  | .uniq (some (l, v')) =>
      ∃ o, lookupV vis l = some o ∧ buf[off]? = some (.ptr (some o)) ∧
        matchesV vis buf o v'
  | .vstr bytes =>
      match bytes with
      | [] => buf[off]? = some (.ptr none) ∧ buf[off + 1]? = some (.raw 0)
      | b :: bs =>
          ∃ p, buf[off]? = some (.ptr (some p)) ∧
            buf[off + 1]? = some (.raw (b :: bs).length) ∧
            payloadAt buf p (b :: bs)
  | .vstruct fs => matchesL vis buf off fs
  | .vvec es =>
      match es with
      | [] => buf[off]? = some (.ptr none) ∧
          buf[off + 1]? = some (.raw 0) ∧ buf[off + 2]? = some (.raw 0)
      | e :: es' =>
          ∃ p, buf[off]? = some (.ptr (some p)) ∧
            buf[off + 1]? = some (.raw (e :: es').length) ∧
            buf[off + 2]? = some (.raw (e :: es').length) ∧
            matchesL vis buf p (e :: es')

/-- `matchesV` for a field list at consecutive offsets. -/
def matchesL (vis : List (Nat × Nat)) (buf : List Cell) (off : Nat) :
    List Val → Prop
  | [] => True
  | v :: vs => matchesV vis buf off v ∧ matchesL vis buf (off + sizeOfVal v) vs

end

mutual

/-- Intermediate correctness of the *serialized* (pre-deserialization)
buffer produced by `fixVal v off`: every cell of `v`'s layout holds its
final serialized content, except raw-pointer slots whose target was not
yet visited, which hold the placeholder and are registered in `pending`.
All cells the predicate constrains outside `v`'s own slots lie in the
window `[lo, hi)` (the region the serializer appended during this call),
which gives the frame reasoning for sibling fields. -/
def okVal (vis pend : List (Nat × Nat)) (buf : List Cell) (off : Nat)
    (lo hi : Nat) : Val → Prop
  | .scalar n => buf[off]? = some (.raw n)
  | .pad b => buf[off]? = some (.raw b)
  | .rawptr none => buf[off]? = some (.delta 0)
  | .rawptr (some l) =>
      (∃ o, lookupV vis l = some o ∧ o ≠ off ∧
        buf[off]? = some (.delta ((o : Int) - (off : Int)))) ∨
      ((l, off) ∈ pend ∧ buf[off]? = some Cell.phold)
  | .uniq none => buf[off]? = some (.delta 0)
  | .uniq (some (l, v')) =>
      ∃ o, lookupV vis l = some o ∧ off < o ∧
        buf[off]? = some (.delta ((o : Int) - (off : Int))) ∧
        lo ≤ o ∧ o + sizeOfVal v' ≤ hi ∧ okVal vis pend buf o lo hi v'
  | .vstr bytes =>
      match bytes with
      | [] => buf[off]? = some (.delta 0) ∧ buf[off + 1]? = some (.raw 0)
      | b :: bs =>
          ∃ p, off < p ∧ buf[off]? = some (.delta ((p : Int) - (off : Int))) ∧
            buf[off + 1]? = some (.raw (b :: bs).length) ∧
            lo ≤ p ∧ p + (b :: bs).length ≤ hi ∧ payloadAt buf p (b :: bs)
  | .vstruct fs => okList vis pend buf off lo hi fs
  | .vvec es =>
      match es with
      | [] => buf[off]? = some (.delta 0) ∧
          buf[off + 1]? = some (.raw 0) ∧ buf[off + 2]? = some (.raw 0)
      | e :: es' =>
          ∃ p, off < p ∧ buf[off]? = some (.delta ((p : Int) - (off : Int))) ∧
            buf[off + 1]? = some (.raw (e :: es').length) ∧
            buf[off + 2]? = some (.raw (e :: es').length) ∧
            lo ≤ p ∧ p + sizeOfList (e :: es') ≤ hi ∧
            okList vis pend buf p lo hi (e :: es')

/-- `okVal` for a field list at consecutive offsets. -/
def okList (vis pend : List (Nat × Nat)) (buf : List Cell) (off : Nat)
    (lo hi : Nat) : List Val → Prop
  | [] => True
  | v :: vs => okVal vis pend buf off lo hi v ∧
      okList vis pend buf (off + sizeOfVal v) lo hi vs

end

/-- Invariant of the serialization context maintained throughout the
traversal: visited offsets lie inside the buffer, visited labels and
offsets are both duplicate-free, pending slots hold the placeholder cell,
pending slot indices are duplicate-free, and a pending slot always lies
strictly below the offset its origin label was (or will be) assigned. -/
def CtxInv (ctx : SerCtx) : Prop :=
  (∀ e ∈ ctx.vis, e.2 < ctx.buf.length) ∧
  (ctx.vis.map Prod.fst).Nodup ∧
  (ctx.vis.map Prod.snd).Nodup ∧
  (∀ e ∈ ctx.pending, ctx.buf[e.2]? = some Cell.phold) ∧
  (ctx.pending.map Prod.snd).Nodup ∧
  (∀ e ∈ ctx.pending, ∀ o, lookupV ctx.vis e.1 = some o → e.2 < o)

/-! ## Basic lemmas -/

theorem one_le_sizeOfVal (v : Val) : 1 ≤ sizeOfVal v := by
  cases v with
  | vstruct fs => exact Nat.le_max_left _ _
  | scalar n => exact Nat.le_refl _
  | pad b => exact Nat.le_refl _
  | rawptr t => exact Nat.le_refl _
  | uniq p => exact Nat.le_refl _
  | vstr bs => exact by norm_num [sizeOfVal]
  | vvec es => exact by norm_num [sizeOfVal]

theorem sizeOfList_cons (v : Val) (vs : List Val) :
    sizeOfList (v :: vs) = sizeOfVal v + sizeOfList vs := rfl

theorem sizeOfVal_vstruct_le (fs : List Val) :
    sizeOfList fs ≤ sizeOfVal (.vstruct fs) := by
  simp [sizeOfVal]

theorem upd_length (buf : List Cell) (i : Nat) (c : Cell) :
    (upd buf i c).length = buf.length := by
  induction buf generalizing i with
  | nil => rfl
  | cons x xs ih => cases i <;> simp [upd, ih]

theorem getElem?_upd_self (buf : List Cell) (i : Nat) (c : Cell)
    (h : i < buf.length) : (upd buf i c)[i]? = some c := by
  induction buf generalizing i with
  | nil => simp at h
  | cons x xs ih =>
    cases i with
    | zero => simp [upd]
    | succ n => simp only [upd, List.getElem?_cons_succ]; exact ih n (by simpa using h)

theorem getElem?_upd_ne (buf : List Cell) (i j : Nat) (c : Cell)
    (h : i ≠ j) : (upd buf i c)[j]? = buf[j]? := by
  induction buf generalizing i j with
  | nil => rfl
  | cons x xs ih =>
    cases i with
    | zero => cases j with
      | zero => omega
      | succ m => simp [upd]
    | succ n => cases j with
      | zero => simp [upd]
      | succ m => simp only [upd, List.getElem?_cons_succ]; exact ih n m (by omega)

theorem lookupV_cons (k o l : Nat) (rest : List (Nat × Nat)) :
    lookupV ((k, o) :: rest) l =
      if k = l then some o else lookupV rest l := rfl

theorem lookupV_mem {vis : List (Nat × Nat)} {l o : Nat}
    (h : lookupV vis l = some o) : (l, o) ∈ vis := by
  induction vis with
  | nil => simp [lookupV] at h
  | cons e rest ih =>
    obtain ⟨k, v⟩ := e
    rw [lookupV] at h
    by_cases hk : k = l
    · subst hk; simp at h; simp [h.symm]
    · simp [hk] at h; exact List.mem_cons_of_mem _ (ih h)

theorem lookupV_eq_none {vis : List (Nat × Nat)} {l : Nat}
    (h : lookupV vis l = none) : l ∉ vis.map Prod.fst := by
  induction vis with
  | nil => simp
  | cons e rest ih =>
    obtain ⟨k, v⟩ := e
    rw [lookupV] at h
    by_cases hk : k = l
    · simp [hk] at h
    · intro hmem
      simp only [List.map_cons, List.mem_cons] at hmem
      rcases hmem with hmem | hmem
      · exact hk hmem.symm
      · exact ih (by simpa [hk] using h) hmem

theorem lookupV_isSome_of_mem {vis : List (Nat × Nat)} {l : Nat}
    (h : l ∈ vis.map Prod.fst) : ∃ o, lookupV vis l = some o := by
  induction vis with
  | nil => simp at h
  | cons e rest ih =>
    obtain ⟨k, v⟩ := e
    by_cases hk : k = l
    · exact ⟨v, by simp [lookupV, hk]⟩
    · have h' : l ∈ rest.map Prod.fst := by
        simp only [List.map_cons, List.mem_cons] at h
        rcases h with h | h
        · exact absurd h.symm hk
        · exact h
      obtain ⟨o, ho⟩ := ih h'
      exact ⟨o, by simp [lookupV, hk, ho]⟩

theorem lookupV_inj {vis : List (Nat × Nat)} {l1 l2 o : Nat}
    (hnd : (vis.map Prod.snd).Nodup)
    (h1 : lookupV vis l1 = some o) (h2 : lookupV vis l2 = some o) :
    l1 = l2 := by
  induction vis with
  | nil => simp [lookupV] at h1
  | cons e rest ih =>
    obtain ⟨k, v⟩ := e
    simp only [List.map_cons, List.nodup_cons] at hnd
    rw [lookupV] at h1 h2
    by_cases hk1 : k = l1
    · by_cases hk2 : k = l2
      · omega
      · rw [if_pos hk1] at h1
        rw [if_neg hk2] at h2
        injection h1 with h1
        subst h1
        exact absurd (List.mem_map_of_mem Prod.snd (lookupV_mem h2)) hnd.1
    · by_cases hk2 : k = l2
      · rw [if_neg hk1] at h1
        rw [if_pos hk2] at h2
        injection h2 with h2
        subst h2
        exact absurd (List.mem_map_of_mem Prod.snd (lookupV_mem h1)) hnd.1
      · rw [if_neg hk1] at h1
        rw [if_neg hk2] at h2
        exact ih hnd.2 h1 h2

theorem setCell_vis (ctx : SerCtx) (i : Nat) (c : Cell) :
    (setCell ctx i c).vis = ctx.vis := rfl

theorem setCell_pending (ctx : SerCtx) (i : Nat) (c : Cell) :
    (setCell ctx i c).pending = ctx.pending := rfl

theorem reserve_fst (ctx : SerCtx) (n : Nat) :
    (reserve ctx n).1 = ctx.buf.length := rfl

theorem reserve_buf_length (ctx : SerCtx) (n : Nat) :
    (reserve ctx n).2.buf.length = ctx.buf.length + n := by
  simp [reserve]

theorem reserve_getElem?_old (ctx : SerCtx) (n i : Nat)
    (h : i < ctx.buf.length) : (reserve ctx n).2.buf[i]? = ctx.buf[i]? := by
  simp [reserve, List.getElem?_append, h]

theorem reserve_getElem?_new (ctx : SerCtx) (n i : Nat)
    (h1 : ctx.buf.length ≤ i) (h2 : i < ctx.buf.length + n) :
    (reserve ctx n).2.buf[i]? = some (.raw 0) := by
  simp only [reserve]
  rw [List.getElem?_append_right h1]
  rw [List.getElem?_replicate_of_lt (by omega)]

theorem writePayload_vis (ctx : SerCtx) (p : Nat) (bs : List Nat) :
    (writePayload ctx p bs).vis = ctx.vis := by
  induction bs generalizing ctx p with
  | nil => rfl
  | cons b bs ih => simp [writePayload, ih, setCell]

theorem writePayload_pending (ctx : SerCtx) (p : Nat) (bs : List Nat) :
    (writePayload ctx p bs).pending = ctx.pending := by
  induction bs generalizing ctx p with
  | nil => rfl
  | cons b bs ih => simp [writePayload, ih, setCell]

theorem writePayload_length (ctx : SerCtx) (p : Nat) (bs : List Nat) :
    (writePayload ctx p bs).buf.length = ctx.buf.length := by
  induction bs generalizing ctx p with
  | nil => rfl
  | cons b bs ih => simp [writePayload, ih, setCell, upd_length]

theorem writePayload_frame (ctx : SerCtx) (p : Nat) (bs : List Nat) (i : Nat)
    (h : i < p ∨ p + bs.length ≤ i) :
    (writePayload ctx p bs).buf[i]? = ctx.buf[i]? := by
  induction bs generalizing ctx p with
  | nil => rfl
  | cons b bs ih =>
    simp only [writePayload]
    rw [ih _ _ (by simp at h; omega)]
    exact getElem?_upd_ne _ _ _ _ (by simp at h ⊢; omega)

theorem writePayload_payloadAt (ctx : SerCtx) (p : Nat) (bs : List Nat)
    (h : p + bs.length ≤ ctx.buf.length) :
    payloadAt (writePayload ctx p bs).buf p bs := by
  induction bs generalizing ctx p with
  | nil => trivial
  | cons b bs ih =>
    simp only [writePayload, payloadAt]
    constructor
    · rw [writePayload_frame _ _ _ _ (Or.inl (by omega))]
      exact getElem?_upd_self _ _ _ (by simp at h; omega)
    · exact ih _ _ (by simp [setCell, upd_length]; simp at h; omega)

theorem deserializeFrom_getElem? (buf : List Cell) (s i : Nat) :
    (deserializeFrom s buf)[i]? = (buf[i]?).map (resolveCell (s + i)) := by
  induction buf generalizing s i with
  | nil => simp [deserializeFrom]
  | cons c cs ih =>
    cases i with
    | zero => simp [deserializeFrom]
    | succ n =>
      simp only [deserializeFrom, List.getElem?_cons_succ]
      rw [ih (s + 1) n]
      ring_nf

theorem deserializeG_getElem? (buf : List Cell) (i : Nat) :
    (deserializeG buf)[i]? = (buf[i]?).map (resolveCell i) := by
  simpa using deserializeFrom_getElem? buf 0 i

/-! ## Preservation of `okVal` under buffer/context growth -/

theorem payloadAt_mono {buf buf' : List Cell} {p : Nat} {bs : List Nat}
    (hag : ∀ i, p ≤ i → i < p + bs.length → buf'[i]? = buf[i]?)
    (h : payloadAt buf p bs) : payloadAt buf' p bs := by
  induction bs generalizing p with
  | nil => trivial
  | cons b bs ih =>
    obtain ⟨h1, h2⟩ := h
    refine ⟨?_, ih (fun i hi1 hi2 => hag i (by omega) (by simp; omega)) h2⟩
    rw [hag p (Nat.le_refl _) (by simp)]
    exact h1

mutual

/-- `okVal` is preserved when the visited map and pending queue grow, the
buffer is unchanged on the value's own slots and on the append window, and
the window is widened. -/
theorem okVal_mono {vis vis' pend pend' : List (Nat × Nat)}
    {buf buf' : List Cell} {off lo hi lo' hi' : Nat} (v : Val)
    (hvis : ∀ l o, lookupV vis l = some o → lookupV vis' l = some o)
    (hpend : ∀ e ∈ pend, e ∈ pend')
    (hag : ∀ i, (off ≤ i ∧ i < off + sizeOfVal v) ∨ (lo ≤ i ∧ i < hi) →
      buf'[i]? = buf[i]?)
    (hlo : lo' ≤ lo) (hhi : hi ≤ hi')
    (h : okVal vis pend buf off lo hi v) :
    okVal vis' pend' buf' off lo' hi' v := by
  cases v with
  | scalar n =>
    simp only [okVal] at h ⊢
    rw [hag off (Or.inl ⟨Nat.le_refl _, by simp [sizeOfVal]⟩)]; exact h
  | pad b =>
    simp only [okVal] at h ⊢
    rw [hag off (Or.inl ⟨Nat.le_refl _, by simp [sizeOfVal]⟩)]; exact h
  | rawptr t =>
    cases t with
    | none =>
      simp only [okVal] at h ⊢
      rw [hag off (Or.inl ⟨Nat.le_refl _, by simp [sizeOfVal]⟩)]; exact h
    | some l =>
      simp only [okVal] at h ⊢
      rcases h with ⟨o, hlk, hne, hcell⟩ | ⟨hmem, hcell⟩
      · exact Or.inl ⟨o, hvis _ _ hlk, hne, by
          rw [hag off (Or.inl ⟨Nat.le_refl _, by simp [sizeOfVal]⟩)]; exact hcell⟩
      · exact Or.inr ⟨hpend _ hmem, by
          rw [hag off (Or.inl ⟨Nat.le_refl _, by simp [sizeOfVal]⟩)]; exact hcell⟩
  | uniq t =>
    cases t with
    | none =>
      simp only [okVal] at h ⊢
      rw [hag off (Or.inl ⟨Nat.le_refl _, by simp [sizeOfVal]⟩)]; exact h
    | some p =>
      obtain ⟨l, v'⟩ := p
      simp only [okVal] at h ⊢
      obtain ⟨o, hlk, hlt, hcell, hlo2, hhi2, hrec⟩ := h
      refine ⟨o, hvis _ _ hlk, hlt, ?_, Nat.le_trans hlo hlo2,
        Nat.le_trans hhi2 hhi, ?_⟩
      · rw [hag off (Or.inl ⟨Nat.le_refl _, by simp [sizeOfVal]⟩)]; exact hcell
      · exact okVal_mono v' hvis hpend
          (fun i hi => hag i (Or.inr (by rcases hi with hi | hi <;> omega)))
          hlo hhi hrec
  | vstr bytes =>
    cases bytes with
    | nil =>
      simp only [okVal] at h ⊢
      refine ⟨?_, ?_⟩
      · rw [hag off (Or.inl ⟨Nat.le_refl _, by simp [sizeOfVal]⟩)]; exact h.1
      · rw [hag (off + 1) (Or.inl ⟨by omega, by simp [sizeOfVal]⟩)]; exact h.2
    | cons b bs =>
      simp only [okVal] at h ⊢
      obtain ⟨p, hlt, hcell, hsz, hlo2, hhi2, hpl⟩ := h
      refine ⟨p, hlt, ?_, ?_, Nat.le_trans hlo hlo2, Nat.le_trans hhi2 hhi, ?_⟩
      · rw [hag off (Or.inl ⟨Nat.le_refl _, by simp [sizeOfVal]⟩)]; exact hcell
      · rw [hag (off + 1) (Or.inl ⟨by omega, by simp [sizeOfVal]⟩)]; exact hsz
      · exact payloadAt_mono
          (fun i hi1 hi2 => hag i (Or.inr ⟨by omega, by
            simp only [List.length_cons] at hi2 hhi2; omega⟩)) hpl
  | vstruct fs =>
    simp only [okVal] at h ⊢
    exact okList_mono fs hvis hpend
      (fun i hi => hag i (by
        rcases hi with hi | hi
        · exact Or.inl ⟨hi.1, by
            have := sizeOfVal_vstruct_le fs; omega⟩
        · exact Or.inr hi))
      hlo hhi h
  | vvec es =>
    cases es with
    | nil =>
      simp only [okVal] at h ⊢
      refine ⟨?_, ?_, ?_⟩
      · rw [hag off (Or.inl ⟨Nat.le_refl _, by simp [sizeOfVal]⟩)]; exact h.1
      · rw [hag (off + 1) (Or.inl ⟨by omega, by simp [sizeOfVal]⟩)]; exact h.2.1
      · rw [hag (off + 2) (Or.inl ⟨by omega, by simp [sizeOfVal]⟩)]; exact h.2.2
    | cons e es' =>
      simp only [okVal] at h ⊢
      obtain ⟨p, hlt, hcell, hsz, hcap, hlo2, hhi2, hrec⟩ := h
      refine ⟨p, hlt, ?_, ?_, ?_, Nat.le_trans hlo hlo2,
        Nat.le_trans hhi2 hhi, ?_⟩
      · rw [hag off (Or.inl ⟨Nat.le_refl _, by simp [sizeOfVal]⟩)]; exact hcell
      · rw [hag (off + 1) (Or.inl ⟨by omega, by simp [sizeOfVal]⟩)]; exact hsz
      · rw [hag (off + 2) (Or.inl ⟨by omega, by simp [sizeOfVal]⟩)]; exact hcap
      · exact okList_mono (e :: es') hvis hpend
          (fun i hi => hag i (Or.inr (by rcases hi with hi | hi <;> omega)))
          hlo hhi hrec

/-- `okList` version of `okVal_mono`. -/
theorem okList_mono {vis vis' pend pend' : List (Nat × Nat)}
    {buf buf' : List Cell} {off lo hi lo' hi' : Nat} (vs : List Val)
    (hvis : ∀ l o, lookupV vis l = some o → lookupV vis' l = some o)
    (hpend : ∀ e ∈ pend, e ∈ pend')
    (hag : ∀ i, (off ≤ i ∧ i < off + sizeOfList vs) ∨ (lo ≤ i ∧ i < hi) →
      buf'[i]? = buf[i]?)
    (hlo : lo' ≤ lo) (hhi : hi ≤ hi')
    (h : okList vis pend buf off lo hi vs) :
    okList vis' pend' buf' off lo' hi' vs := by
  cases vs with
  | nil => trivial
  | cons v vs' =>
    obtain ⟨h1, h2⟩ := h
    refine ⟨?_, ?_⟩
    · exact okVal_mono v hvis hpend
        (fun i hi => hag i (by
          rcases hi with hi | hi
          · exact Or.inl ⟨hi.1, by simp [sizeOfList_cons]; omega⟩
          · exact Or.inr hi))
        hlo hhi h1
    · exact okList_mono vs' hvis hpend
        (fun i hi => hag i (by
          rcases hi with hi | hi
          · exact Or.inl ⟨by omega, by simp [sizeOfList_cons] at hi ⊢; omega⟩
          · exact Or.inr hi))
        hlo hhi h2

end

/-! ## The main induction: hypothesis and conclusion bundles -/

/-- Preconditions for serializing a value of slot size `sz`, unique labels
`uls` and head raw-pointer label `hrl` into the reserved region starting at
`off`: the region is inside the buffer and still holds untouched reserve
placeholders, the value's unique labels are not yet visited and pairwise
distinct, no visited block starts strictly inside the region, and a visited
block starting exactly at `off` is not the target of the region's leading
raw pointer (the spec's no-self-pointing rule). -/
structure EmitH (sz : Nat) (uls : List Nat) (hrl : Option Nat) (off : Nat)
    (ctx : SerCtx) : Prop where
  inv : CtxInv ctx
  bound : off + sz ≤ ctx.buf.length
  fresh : ∀ i, off ≤ i → i < off + sz → ctx.buf[i]? = some (.raw 0)
  disj : ∀ l ∈ uls, lookupV ctx.vis l = none
  nd : uls.Nodup
  hoff : ∀ l o, lookupV ctx.vis l = some o → o = off → hrl ≠ some l
  hint : ∀ e ∈ ctx.vis, ¬ (off < e.2 ∧ e.2 < off + sz)

/-- Effect summary of one serialization step on the context: the invariant
is maintained, the buffer only grows, cells outside the value's region and
below the old length are untouched, the visited map grows by exactly the
value's unique labels (at offsets at or beyond the old length), and the
pending queue grows by patches for the value's raw-pointer labels. -/
structure EmitC (sz : Nat) (uls rls : List Nat) (off : Nat)
    (ctx ctx' : SerCtx) : Prop where
  inv : CtxInv ctx'
  len : ctx.buf.length ≤ ctx'.buf.length
  frame : ∀ i, i < ctx.buf.length → ¬ (off ≤ i ∧ i < off + sz) →
    ctx'.buf[i]? = ctx.buf[i]?
  vmono : ∀ l o, lookupV ctx.vis l = some o → lookupV ctx'.vis l = some o
  vcover : ∀ l ∈ uls, ∃ o, lookupV ctx'.vis l = some o
  vsame : ∀ l, l ∉ uls → lookupV ctx'.vis l = lookupV ctx.vis l
  vnew : ∀ e ∈ ctx'.vis, e ∈ ctx.vis ∨ (ctx.buf.length ≤ e.2 ∧ e.1 ∈ uls)
  pmono : ∀ e ∈ ctx.pending, e ∈ ctx'.pending
  pnew : ∀ e ∈ ctx'.pending, e ∈ ctx.pending ∨ e.1 ∈ rls

theorem lt_of_getElem?_some {buf : List Cell} {i : Nat} {c : Cell}
    (h : buf[i]? = some c) : i < buf.length := by
  by_contra hge
  rw [List.getElem?_eq_none (by omega)] at h
  exact Option.noConfusion h

theorem setCell_buf_length (ctx : SerCtx) (i : Nat) (c : Cell) :
    (setCell ctx i c).buf.length = ctx.buf.length := upd_length _ _ _

theorem setCell_getElem?_self (ctx : SerCtx) (i : Nat) (c : Cell)
    (h : i < ctx.buf.length) : (setCell ctx i c).buf[i]? = some c :=
  getElem?_upd_self _ _ _ h

theorem setCell_getElem?_ne (ctx : SerCtx) (i j : Nat) (c : Cell)
    (h : i ≠ j) : (setCell ctx i c).buf[j]? = ctx.buf[j]? :=
  getElem?_upd_ne _ _ _ _ h

/-- The context invariant survives reserving fresh cells. -/
theorem CtxInv_reserve {ctx : SerCtx} (hinv : CtxInv ctx) (n : Nat) :
    CtxInv (reserve ctx n).2 := by
  obtain ⟨h1, h2, h3, h4, h5, h6⟩ := hinv
  refine ⟨?_, h2, h3, ?_, h5, h6⟩
  · intro e he
    have := h1 e he
    rw [reserve_buf_length]; omega
  · intro e he
    rw [reserve_getElem?_old _ _ _ (lt_of_getElem?_some (h4 e he))]
    exact h4 e he

/-- The context invariant survives overwriting a cell that still holds an
untouched reserve placeholder (such a cell is never a pending slot). -/
theorem CtxInv_setCell {ctx : SerCtx} {i : Nat} (c : Cell)
    (hinv : CtxInv ctx) (h0 : ctx.buf[i]? = some (.raw 0)) :
    CtxInv (setCell ctx i c) := by
  obtain ⟨h1, h2, h3, h4, h5, h6⟩ := hinv
  refine ⟨?_, h2, h3, ?_, h5, h6⟩
  · intro e he
    rw [setCell_buf_length]; exact h1 e he
  · intro e he
    rw [setCell_pending] at he
    have hne : i ≠ e.2 := by
      intro heq
      have hc := h4 e he
      rw [← heq, h0] at hc
      simp at hc
    rw [setCell_getElem?_ne _ _ _ _ hne]
    exact h4 e he

/-- Composition of two adjacent serialization steps. -/
theorem EmitC_trans {sz1 sz2 : Nat} {uls1 uls2 rls1 rls2 : List Nat}
    {off : Nat} {ctx ctx1 ctx2 : SerCtx}
    (h1 : EmitC sz1 uls1 rls1 off ctx ctx1)
    (h2 : EmitC sz2 uls2 rls2 (off + sz1) ctx1 ctx2) :
    EmitC (sz1 + sz2) (uls1 ++ uls2) (rls1 ++ rls2) off ctx ctx2 := by
  refine ⟨h2.inv, Nat.le_trans h1.len h2.len, ?_, ?_, ?_, ?_, ?_, ?_, ?_⟩
  · intro i hi hni
    have hl1 := h1.len
    rw [h2.frame i (by omega) (by omega)]
    exact h1.frame i hi (by omega)
  · exact fun l o h => h2.vmono l o (h1.vmono l o h)
  · intro l hl
    rcases List.mem_append.mp hl with hl | hl
    · obtain ⟨o, ho⟩ := h1.vcover l hl
      exact ⟨o, h2.vmono l o ho⟩
    · exact h2.vcover l hl
  · intro l hl
    rw [h2.vsame l (fun h => hl (List.mem_append.mpr (Or.inr h))),
      h1.vsame l (fun h => hl (List.mem_append.mpr (Or.inl h)))]
  · intro e he
    rcases h2.vnew e he with he' | he'
    · rcases h1.vnew e he' with he'' | he''
      · exact Or.inl he''
      · exact Or.inr ⟨he''.1, List.mem_append.mpr (Or.inl he''.2)⟩
    · exact Or.inr ⟨Nat.le_trans h1.len he'.1,
        List.mem_append.mpr (Or.inr he'.2)⟩
  · exact fun e he => h2.pmono e (h1.pmono e he)
  · intro e he
    rcases h2.pnew e he with he' | he'
    · rcases h1.pnew e he' with he'' | he''
      · exact Or.inl he''
      · exact Or.inr (List.mem_append.mpr (Or.inl he''))
    · exact Or.inr (List.mem_append.mpr (Or.inr he'))

/-- Reserving fresh cells is a no-op on all existing state. -/
theorem emit_reserve {ctx : SerCtx} (hinv : CtxInv ctx) (off n : Nat) :
    EmitC 0 [] [] off ctx (reserve ctx n).2 := by
  refine ⟨CtxInv_reserve hinv n, ?_, ?_, ?_, ?_, ?_, ?_, ?_, ?_⟩
  · rw [reserve_buf_length]; omega
  · intro i hi _
    exact reserve_getElem?_old _ _ _ hi
  · exact fun l o h => h
  · intro l hl; exact absurd hl (List.not_mem_nil l)
  · exact fun l _ => rfl
  · exact fun e he => Or.inl he
  · exact fun e he => he
  · exact fun e he => Or.inl he

/-- Writing a string payload into freshly reserved cells beyond the old
buffer end is a no-op on all previously meaningful state. -/
theorem emit_payloadW {ctx : SerCtx} (hinv : CtxInv ctx) (off p : Nat)
    (bs : List Nat) (hp : ctx.buf.length ≤ p) :
    EmitC 0 [] [] off ctx (writePayload ctx p bs) := by
  obtain ⟨h1, h2, h3, h4, h5, h6⟩ := hinv
  refine ⟨⟨?_, ?_, ?_, ?_, ?_, ?_⟩, ?_, ?_, ?_, ?_, ?_, ?_, ?_, ?_⟩
  · intro e he
    rw [writePayload_length, writePayload_vis] at *
    exact h1 e he
  · rw [writePayload_vis]; exact h2
  · rw [writePayload_vis]; exact h3
  · intro e he
    rw [writePayload_pending] at he
    rw [writePayload_frame _ _ _ _
      (Or.inl (Nat.lt_of_lt_of_le (lt_of_getElem?_some (h4 e he)) hp))]
    exact h4 e he
  · rw [writePayload_pending]; exact h5
  · intro e he
    rw [writePayload_pending] at he
    rw [writePayload_vis]
    exact h6 e he
  · rw [writePayload_length]
  · intro i hi _
    exact writePayload_frame _ _ _ _ (Or.inl (by omega))
  · rw [writePayload_vis]; exact fun l o h => h
  · intro l hl; exact absurd hl (List.not_mem_nil l)
  · rw [writePayload_vis]; exact fun l _ => rfl
  · rw [writePayload_vis]; exact fun e he => Or.inl he
  · rw [writePayload_pending]; exact fun e he => he
  · rw [writePayload_pending]; exact fun e he => Or.inl he

/-- Writing one final (non-placeholder) cell into its fresh slot. -/
theorem emit_cell {ctx : SerCtx} (hinv : CtxInv ctx) (off : Nat) (c : Cell)
    (h0 : ctx.buf[off]? = some (.raw 0)) :
    EmitC 1 [] [] off ctx (setCell ctx off c) := by
  refine ⟨CtxInv_setCell c hinv h0, ?_, ?_, ?_, ?_, ?_, ?_, ?_, ?_⟩
  · rw [setCell_buf_length]
  · intro i hi hni
    exact setCell_getElem?_ne _ _ _ _ (by omega)
  · exact fun l o h => h
  · intro l hl; exact absurd hl (List.not_mem_nil l)
  · exact fun l _ => rfl
  · exact fun e he => Or.inl he
  · exact fun e he => he
  · exact fun e he => Or.inl he

/-- Head raw-pointer label of a field list (first cell of the layout). -/
def headRawLabelL : List Val → Option Nat
  | [] => none
  | v :: _ => headRawLabel v

theorem headRawLabel_vstruct (fs : List Val) :
    headRawLabel (.vstruct fs) = headRawLabelL fs := by
  cases fs <;> rfl

/-- A no-op step satisfies the effect summary. -/
theorem EmitC_refl {ctx : SerCtx} (hinv : CtxInv ctx) (off : Nat) :
    EmitC 0 [] [] off ctx ctx := by
  refine ⟨hinv, Nat.le_refl _, ?_, ?_, ?_, ?_, ?_, ?_, ?_⟩
  · exact fun i _ _ => rfl
  · exact fun l o h => h
  · intro l hl; exact absurd hl (List.not_mem_nil l)
  · exact fun l _ => rfl
  · exact fun e he => Or.inl he
  · exact fun e he => he
  · exact fun e he => Or.inl he

/-- The effect summary only weakens when the claimed region grows. -/
theorem EmitC_grow {sz sz' : Nat} {uls rls : List Nat} {off : Nat}
    {ctx ctx' : SerCtx} (h : EmitC sz uls rls off ctx ctx')
    (hsz : sz ≤ sz') : EmitC sz' uls rls off ctx ctx' := by
  refine ⟨h.inv, h.len, ?_, h.vmono, h.vcover, h.vsame, h.vnew, h.pmono,
    h.pnew⟩
  intro i hi hni
  exact h.frame i hi (by omega)

/-- The effect summary only weakens when the raw-label set grows. -/
theorem EmitC_rls {sz : Nat} {uls rls rls' : List Nat} {off : Nat}
    {ctx ctx' : SerCtx} (h : EmitC sz uls rls off ctx ctx')
    (hr : ∀ x ∈ rls, x ∈ rls') : EmitC sz uls rls' off ctx ctx' := by
  refine ⟨h.inv, h.len, h.frame, h.vmono, h.vcover, h.vsame, h.vnew,
    h.pmono, ?_⟩
  intro e he
  rcases h.pnew e he with he' | he'
  · exact Or.inl he'
  · exact Or.inr (hr _ he')

/-- The context invariant survives writing a payload into cells that still
hold untouched reserve placeholders. -/
theorem CtxInv_writePayload {ctx : SerCtx} {p : Nat} {bs : List Nat}
    (hinv : CtxInv ctx)
    (hfr : ∀ i, p ≤ i → i < p + bs.length → ctx.buf[i]? = some (.raw 0)) :
    CtxInv (writePayload ctx p bs) := by
  induction bs generalizing ctx p with
  | nil => exact hinv
  | cons b bs ih =>
    simp only [writePayload]
    refine ih (CtxInv_setCell _ hinv (hfr p (Nat.le_refl _) (by simp))) ?_
    intro i hi1 hi2
    rw [setCell_getElem?_ne _ _ _ _ (by omega)]
    exact hfr i (by omega) (by simp at hi2 ⊢; omega)

/-- Registering a pending patch: the slot gets the placeholder and the
patch joins the queue. -/
theorem emit_pend {ctx : SerCtx} (hinv : CtxInv ctx) (off l : Nat)
    (h0 : ctx.buf[off]? = some (.raw 0))
    (hnol : lookupV ctx.vis l = none) :
    EmitC 1 [] [l] off ctx
      { setCell ctx off .phold with
          pending := (l, off) :: (setCell ctx off .phold).pending } ∧
    (l, off) ∈ ({ setCell ctx off .phold with
          pending := (l, off) :: (setCell ctx off .phold).pending } :
        SerCtx).pending := by
  obtain ⟨h1, h2, h3, h4, h5, h6⟩ := hinv
  have hlen : off < ctx.buf.length := lt_of_getElem?_some h0
  have hpne : ∀ e ∈ ctx.pending, e.2 ≠ off := by
    intro e he heq
    have := h4 e he
    rw [heq, h0] at this
    exact Cell.noConfusion (Option.some.injEq _ _ ▸ this)
  refine ⟨⟨⟨?_, h2, h3, ?_, ?_, ?_⟩, ?_, ?_, ?_, ?_, ?_, ?_, ?_, ?_⟩, ?_⟩
  · intro e he
    rw [setCell_buf_length]; exact h1 e he
  · intro e he
    simp only [setCell_pending, List.mem_cons] at he
    rcases he with he | he
    · rw [he]
      exact setCell_getElem?_self _ _ _ hlen
    · rw [setCell_getElem?_ne _ _ _ _ (fun hx => hpne e he hx.symm)]
      exact h4 e he
  · simp only [setCell_pending, List.map_cons, List.nodup_cons]
    exact ⟨fun hmem => by
      obtain ⟨e, he, heq⟩ := List.mem_map.mp hmem
      exact hpne e he heq, h5⟩
  · intro e he o ho
    simp only [setCell_pending, List.mem_cons] at he
    rw [setCell_vis] at ho
    rcases he with he | he
    · rw [he] at ho ⊢
      rw [hnol] at ho
      exact Option.noConfusion ho
    · exact h6 e he o ho
  · rw [setCell_buf_length]
  · intro i hi hni
    exact setCell_getElem?_ne _ _ _ _ (by omega)
  · rw [setCell_vis]; exact fun l' o h => h
  · intro l' hl'; exact absurd hl' (List.not_mem_nil l')
  · rw [setCell_vis]; exact fun l' _ => rfl
  · rw [setCell_vis]; exact fun e he => Or.inl he
  · intro e he
    simp only [setCell_pending, List.mem_cons]
    exact Or.inr he
  · intro e he
    simp only [setCell_pending, List.mem_cons] at he
    rcases he with he | he
    · rw [he]; simp
    · exact Or.inl he
  · simp

/-- Goal of the main induction for a single value: the effect summary plus
correctness of the freshly serialized region. -/
def FixGoal (v : Val) (off : Nat) (ctx : SerCtx) : Prop :=
  EmitC (sizeOfVal v) (uniqLabels v) (rawLabels v) off ctx (fixVal v off ctx) ∧
  okVal (fixVal v off ctx).vis (fixVal v off ctx).pending
    (fixVal v off ctx).buf off ctx.buf.length (fixVal v off ctx).buf.length v

/-- Goal of the main induction for a field list. -/
def FixGoalL (vs : List Val) (off : Nat) (ctx : SerCtx) : Prop :=
  EmitC (sizeOfList vs) (uniqLabelsL vs) (rawLabelsL vs) off ctx
    (fixList vs off ctx) ∧
  okList (fixList vs off ctx).vis (fixList vs off ctx).pending
    (fixList vs off ctx).buf off ctx.buf.length
    (fixList vs off ctx).buf.length vs

/-- Induction hypothesis shape for a value. -/
def IHV (v : Val) : Prop :=
  ∀ off ctx, EmitH (sizeOfVal v) (uniqLabels v) (headRawLabel v) off ctx →
    noSelfPoint v = true → FixGoal v off ctx

/-- Induction hypothesis shape for a field list. -/
def IHL (vs : List Val) : Prop :=
  ∀ off ctx,
    EmitH (sizeOfList vs) (uniqLabelsL vs) (headRawLabelL vs) off ctx →
    noSelfPointL vs = true → FixGoalL vs off ctx

theorem fix_scalar (n off : Nat) (ctx : SerCtx)
    (hh : EmitH 1 [] none off ctx) : FixGoal (.scalar n) off ctx := by
  have h0 := hh.fresh off (Nat.le_refl _) (by omega)
  refine ⟨emit_cell hh.inv off _ h0, ?_⟩
  simp only [fixVal, okVal]
  exact setCell_getElem?_self _ _ _ (by have := hh.bound; omega)

theorem fix_pad (b off : Nat) (ctx : SerCtx)
    (hh : EmitH 1 [] none off ctx) : FixGoal (.pad b) off ctx := by
  have h0 := hh.fresh off (Nat.le_refl _) (by omega)
  refine ⟨emit_cell hh.inv off _ h0, ?_⟩
  simp only [fixVal, okVal]
  exact setCell_getElem?_self _ _ _ (by have := hh.bound; omega)

theorem fix_uniq_none (off : Nat) (ctx : SerCtx)
    (hh : EmitH 1 [] none off ctx) : FixGoal (.uniq none) off ctx := by
  have h0 := hh.fresh off (Nat.le_refl _) (by omega)
  refine ⟨emit_cell hh.inv off _ h0, ?_⟩
  simp only [fixVal, okVal]
  exact setCell_getElem?_self _ _ _ (by have := hh.bound; omega)

theorem fix_rawptr (t : Option Nat) (off : Nat) (ctx : SerCtx)
    (hh : EmitH 1 [] (headRawLabel (.rawptr t)) off ctx) :
    FixGoal (.rawptr t) off ctx := by
  have h0 := hh.fresh off (Nat.le_refl _) (by omega)
  have hlen : off < ctx.buf.length := by have := hh.bound; omega
  cases t with
  | none =>
    refine ⟨emit_cell hh.inv off _ h0, ?_⟩
    simp only [fixVal, okVal]
    exact setCell_getElem?_self _ _ _ hlen
  | some l =>
    cases hl : lookupV ctx.vis l with
    | some o =>
      have hfix : fixVal (.rawptr (some l)) off ctx =
          setCell ctx off (.delta ((o : Int) - (off : Int))) := by
        simp only [fixVal, hl]
      rw [FixGoal, hfix]
      refine ⟨EmitC_rls (emit_cell hh.inv off _ h0) (by simp), ?_⟩
      simp only [okVal]
      refine Or.inl ⟨o, ?_, ?_, ?_⟩
      · rw [setCell_vis]; exact hl
      · intro heq
        exact hh.hoff l o hl heq rfl
      · exact setCell_getElem?_self _ _ _ hlen
    | none =>
      have hfix : fixVal (.rawptr (some l)) off ctx =
          { setCell ctx off .phold with
              pending := (l, off) :: (setCell ctx off .phold).pending } := by
        simp only [fixVal, hl]
      obtain ⟨hec, hmem⟩ := emit_pend hh.inv off l h0 hl
      rw [FixGoal, hfix]
      refine ⟨hec, ?_⟩
      simp only [okVal]
      refine Or.inr ⟨hmem, ?_⟩
      exact setCell_getElem?_self _ _ _ hlen

theorem fix_vstr_nil (off : Nat) (ctx : SerCtx)
    (hh : EmitH 2 [] none off ctx) : FixGoal (.vstr []) off ctx := by
  have h0 := hh.fresh off (Nat.le_refl _) (by omega)
  have h1 := hh.fresh (off + 1) (by omega) (by omega)
  have hlen : off + 1 < ctx.buf.length := by have := hh.bound; omega
  have e1 := emit_cell hh.inv off (Cell.delta 0) h0
  have h1' : (setCell ctx off (Cell.delta 0)).buf[off + 1]? =
      some (.raw 0) := by
    rw [setCell_getElem?_ne _ _ _ _ (by omega)]; exact h1
  have e2 := emit_cell e1.inv (off + 1) (Cell.raw 0) h1'
  refine ⟨EmitC_trans e1 e2, ?_⟩
  simp only [fixVal, okVal]
  constructor
  · rw [setCell_getElem?_ne _ _ _ _ (by omega)]
    exact setCell_getElem?_self _ _ _ (by omega)
  · exact setCell_getElem?_self _ _ _
      (by rw [setCell_buf_length]; omega)

theorem fix_vstr_cons (b : Nat) (bs : List Nat) (off : Nat) (ctx : SerCtx)
    (hh : EmitH 2 [] none off ctx) : FixGoal (.vstr (b :: bs)) off ctx := by
  have h0 := hh.fresh off (Nat.le_refl _) (by omega)
  have h1 := hh.fresh (off + 1) (by omega) (by omega)
  have hlen : off + 1 < ctx.buf.length := by have := hh.bound; omega
  set n := (b :: bs).length with hn
  set n0 := ctx.buf.length with hn0
  set cA := (reserve ctx n).2 with hcA
  have hlenA : cA.buf.length = n0 + n := reserve_buf_length ctx n
  set cB := writePayload cA n0 (b :: bs) with hcB
  have hlenB : cB.buf.length = n0 + n := by
    rw [hcB, writePayload_length]; exact hlenA
  set cC := setCell cB off (.delta ((n0 : Int) - (off : Int))) with hcC
  set cD := setCell cC (off + 1) (.raw n) with hcD
  have hfix : fixVal (.vstr (b :: bs)) off ctx = cD := rfl
  have hAold : ∀ i, i < n0 → cA.buf[i]? = ctx.buf[i]? :=
    fun i hi => reserve_getElem?_old ctx n i hi
  have hAnew : ∀ i, n0 ≤ i → i < n0 + n → cA.buf[i]? = some (.raw 0) :=
    fun i hi1 hi2 => reserve_getElem?_new ctx n i hi1 hi2
  have hBold : ∀ i, i < n0 → cB.buf[i]? = ctx.buf[i]? := by
    intro i hi
    rw [hcB, writePayload_frame _ _ _ _ (Or.inl hi)]
    exact hAold i hi
  have hinvB : CtxInv cB := by
    rw [hcB]
    exact CtxInv_writePayload (CtxInv_reserve hh.inv n) hAnew
  have hB0 : cB.buf[off]? = some (.raw 0) := by
    rw [hBold off (by omega)]; exact h0
  have hC1 : cC.buf[off + 1]? = some (.raw 0) := by
    rw [hcC, setCell_getElem?_ne _ _ _ _ (by omega), hBold _ hlen]
    exact h1
  have hinvC : CtxInv cC := CtxInv_setCell _ hinvB hB0
  have hinvD : CtxInv cD := CtxInv_setCell _ hinvC hC1
  have hvisB : cB.vis = ctx.vis := by rw [hcB, writePayload_vis]; rfl
  have hpendB : cB.pending = ctx.pending := by
    rw [hcB, writePayload_pending]; rfl
  have hlenC : cC.buf.length = n0 + n := by
    rw [hcC, setCell_buf_length]; exact hlenB
  have hlenD : cD.buf.length = n0 + n := by
    rw [hcD, setCell_buf_length]; exact hlenC
  have hsz : sizeOfVal (.vstr (b :: bs)) = 2 := rfl
  refine ⟨?_, ?_⟩
  · rw [hfix]
    refine ⟨hinvD, by omega, ?_, ?_, ?_, ?_, ?_, ?_, ?_⟩
    · intro i hi hni
      rw [hsz] at hni
      rw [hcD, setCell_getElem?_ne _ _ _ _ (by omega), hcC,
        setCell_getElem?_ne _ _ _ _ (by omega)]
      exact hBold i hi
    · intro l o h
      rw [hcD, setCell_vis, hcC, setCell_vis, hvisB]; exact h
    · intro l hl; exact absurd hl (List.not_mem_nil l)
    · intro l _
      rw [hcD, setCell_vis, hcC, setCell_vis, hvisB]
    · intro e he
      rw [hcD, setCell_vis, hcC, setCell_vis, hvisB] at he
      exact Or.inl he
    · intro e he
      rw [hcD, setCell_pending, hcC, setCell_pending, hpendB]; exact he
    · intro e he
      rw [hcD, setCell_pending, hcC, setCell_pending, hpendB] at he
      exact Or.inl he
  · rw [hfix]
    simp only [okVal]
    refine ⟨n0, by omega, ?_, ?_, by omega, by omega, ?_⟩
    · rw [hcD, setCell_getElem?_ne _ _ _ _ (by omega), hcC]
      exact setCell_getElem?_self _ _ _ (by omega)
    · rw [hcD]
      exact setCell_getElem?_self _ _ _ (by omega)
    · have hpl : payloadAt cB.buf n0 (b :: bs) := by
        rw [hcB]
        exact writePayload_payloadAt cA n0 (b :: bs) (by omega)
      refine payloadAt_mono (fun i hi1 hi2 => ?_) hpl
      rw [hcD, setCell_getElem?_ne _ _ _ _ (by omega), hcC,
        setCell_getElem?_ne _ _ _ _ (by omega)]

theorem fix_vvec_nil (off : Nat) (ctx : SerCtx)
    (hh : EmitH 3 [] none off ctx) : FixGoal (.vvec []) off ctx := by
  have h0 := hh.fresh off (Nat.le_refl _) (by omega)
  have h1 := hh.fresh (off + 1) (by omega) (by omega)
  have h2 := hh.fresh (off + 2) (by omega) (by omega)
  have hlen : off + 2 < ctx.buf.length := by have := hh.bound; omega
  have e1 := emit_cell hh.inv off (Cell.delta 0) h0
  have h1' : (setCell ctx off (Cell.delta 0)).buf[off + 1]? =
      some (.raw 0) := by
    rw [setCell_getElem?_ne _ _ _ _ (by omega)]; exact h1
  have e2 := emit_cell e1.inv (off + 1) (Cell.raw 0) h1'
  have h2' : (setCell (setCell ctx off (Cell.delta 0)) (off + 1)
      (Cell.raw 0)).buf[off + 2]? = some (.raw 0) := by
    rw [setCell_getElem?_ne _ _ _ _ (by omega),
      setCell_getElem?_ne _ _ _ _ (by omega)]
    exact h2
  have e3 := emit_cell e2.inv (off + 2) (Cell.raw 0) h2'
  refine ⟨EmitC_trans (EmitC_trans e1 e2) e3, ?_⟩
  simp only [fixVal, okVal]
  refine ⟨?_, ?_, ?_⟩
  · rw [setCell_getElem?_ne _ _ _ _ (by omega),
      setCell_getElem?_ne _ _ _ _ (by omega)]
    exact setCell_getElem?_self _ _ _ (by omega)
  · rw [setCell_getElem?_ne _ _ _ _ (by omega)]
    exact setCell_getElem?_self _ _ _ (by rw [setCell_buf_length]; omega)
  · exact setCell_getElem?_self _ _ _
      (by rw [setCell_buf_length, setCell_buf_length]; omega)

theorem fix_uniq_some (l : Nat) (v' : Val) (off : Nat) (ctx : SerCtx)
    (hh : EmitH 1 (l :: uniqLabels v') none off ctx)
    (hnsp : noSelfPoint (.uniq (some (l, v'))) = true)
    (ih : IHV v') : FixGoal (.uniq (some (l, v'))) off ctx := by
  have hnol : lookupV ctx.vis l = none := hh.disj l (by simp)
  have hone : 1 ≤ sizeOfVal v' := one_le_sizeOfVal v'
  have hofflt : off < ctx.buf.length := by have := hh.bound; omega
  obtain ⟨hc1, hc2, hc3, hc4, hc5, hc6⟩ := hh.inv
  obtain ⟨hlni, hndv⟩ := List.nodup_cons.mp hh.nd
  have hnsp' : headRawLabel v' ≠ some l ∧ noSelfPoint v' = true := by
    simpa [noSelfPoint, Bool.and_eq_true, decide_eq_true_eq] using hnsp
  set sz := sizeOfVal v' with hsz
  set n0 := ctx.buf.length with hn0
  set cA := (reserve ctx sz).2 with hcA
  set cB : SerCtx := { cA with vis := (l, n0) :: cA.vis } with hcB
  set cC := setCell cB off (.delta ((n0 : Int) - (off : Int))) with hcC
  have hfix : fixVal (.uniq (some (l, v'))) off ctx = fixVal v' n0 cC := by
    simp only [fixVal, hnol]
    rfl
  have hlenA : cA.buf.length = n0 + sz := reserve_buf_length ctx sz
  have hAold : ∀ i, i < n0 → cA.buf[i]? = ctx.buf[i]? :=
    fun i hi => reserve_getElem?_old ctx sz i hi
  have hAnew : ∀ i, n0 ≤ i → i < n0 + sz → cA.buf[i]? = some (.raw 0) :=
    fun i hi1 hi2 => reserve_getElem?_new ctx sz i hi1 hi2
  have hBbuf : cB.buf = cA.buf := rfl
  have hBvis : cB.vis = (l, n0) :: ctx.vis := rfl
  have hBpend : cB.pending = ctx.pending := rfl
  have hCvis : cC.vis = (l, n0) :: ctx.vis := rfl
  have hCpend : cC.pending = ctx.pending := rfl
  have hlenC : cC.buf.length = n0 + sz := by
    rw [hcC, setCell_buf_length, hBbuf]; exact hlenA
  have hpendlt : ∀ e ∈ ctx.pending, e.2 < n0 :=
    fun e he => lt_of_getElem?_some (hc4 e he)
  have hinvB : CtxInv cB := by
    refine ⟨?_, ?_, ?_, ?_, ?_, ?_⟩
    · intro e he
      rw [hBvis] at he
      rw [hBbuf, hlenA]
      rcases List.mem_cons.mp he with he | he
      · rw [he]; omega
      · have := hc1 e he; omega
    · rw [hBvis, List.map_cons, List.nodup_cons]
      exact ⟨lookupV_eq_none hnol, hc2⟩
    · rw [hBvis, List.map_cons, List.nodup_cons]
      refine ⟨?_, hc3⟩
      intro hmem
      obtain ⟨e, he, heq⟩ := List.mem_map.mp hmem
      have := hc1 e he; omega
    · intro e he
      rw [hBpend] at he
      rw [hBbuf, hAold _ (hpendlt e he)]
      exact hc4 e he
    · rw [hBpend]; exact hc5
    · intro e he o ho
      rw [hBpend] at he
      rw [hBvis, lookupV_cons] at ho
      by_cases hel : l = e.1
      · rw [if_pos hel] at ho
        injection ho with ho
        rw [← ho]
        exact hpendlt e he
      · rw [if_neg hel] at ho
        exact hc6 e he o ho
  have hB0 : cB.buf[off]? = some (.raw 0) := by
    rw [hBbuf, hAold off hofflt]
    exact hh.fresh off (Nat.le_refl _) (by omega)
  have hinvC : CtxInv cC := CtxInv_setCell _ hinvB hB0
  have hlkC : ∀ l' o', lookupV ctx.vis l' = some o' →
      lookupV cC.vis l' = some o' := by
    intro l' o' h
    have hne : l ≠ l' := by
      intro heq
      rw [heq] at hnol
      rw [hnol] at h
      exact Option.noConfusion h
    rw [hCvis, lookupV_cons, if_neg hne]
    exact h
  have hEH : EmitH (sizeOfVal v') (uniqLabels v') (headRawLabel v') n0 cC := by
    refine ⟨hinvC, by omega, ?_, ?_, hndv, ?_, ?_⟩
    · intro i hi1 hi2
      rw [hcC, setCell_getElem?_ne _ _ _ _ (by omega), hBbuf]
      exact hAnew i hi1 hi2
    · intro l'' hl''
      have hne : l ≠ l'' := fun heq => hlni (heq ▸ hl'')
      rw [hCvis, lookupV_cons, if_neg hne]
      exact hh.disj l'' (List.mem_cons_of_mem _ hl'')
    · intro l'' o'' hlk heq
      rw [hCvis, lookupV_cons] at hlk
      by_cases hel : l = l''
      · rw [if_pos hel] at hlk
        rw [← hel]
        exact hnsp'.1
      · rw [if_neg hel] at hlk
        have := hc1 _ (lookupV_mem hlk)
        omega
    · intro e he
      rw [hCvis] at he
      rcases List.mem_cons.mp he with he | he
      · rw [he]; omega
      · have := hc1 e he; omega
  obtain ⟨hE, hok⟩ := ih n0 cC hEH hnsp'.2
  set cF := fixVal v' n0 cC with hcF
  have hlenF : cC.buf.length ≤ cF.buf.length := hE.len
  have hlkF : lookupV cF.vis l = some n0 := by
    refine hE.vmono l n0 ?_
    rw [hCvis, lookupV_cons, if_pos rfl]
  have hcellF : cF.buf[off]? = some (.delta ((n0 : Int) - (off : Int))) := by
    rw [hE.frame off (by omega) (by omega), hcC]
    exact setCell_getElem?_self _ _ _ (by rw [hBbuf]; omega)
  rw [FixGoal, hfix]
  constructor
  · refine ⟨hE.inv, by omega, ?_, ?_, ?_, ?_, ?_, ?_, ?_⟩
    · intro i hi hni
      have hs1 : sizeOfVal (Val.uniq (some (l, v'))) = 1 := rfl
      rw [hs1] at hni
      rw [hE.frame i (by omega) (by omega), hcC,
        setCell_getElem?_ne _ _ _ _ (by omega), hBbuf]
      exact hAold i hi
    · intro l' o' h
      exact hE.vmono l' o' (hlkC l' o' h)
    · intro l'' hl''
      rcases List.mem_cons.mp hl'' with he | he
      · exact ⟨n0, he ▸ hlkF⟩
      · obtain ⟨o, ho⟩ := hE.vcover l'' he
        exact ⟨o, ho⟩
    · intro l'' hl''
      have hne : l ≠ l'' := fun heq => hl'' (heq ▸ List.mem_cons_self l _)
      have hnm : l'' ∉ uniqLabels v' :=
        fun hm => hl'' (List.mem_cons_of_mem _ hm)
      rw [hE.vsame l'' hnm, hCvis, lookupV_cons, if_neg hne]
    · intro e he
      rcases hE.vnew e he with he' | he'
      · rw [hCvis] at he'
        rcases List.mem_cons.mp he' with he'' | he''
        · refine Or.inr ⟨?_, ?_⟩
          · rw [he'']
          · rw [he'']; exact List.mem_cons_self l _
        · exact Or.inl he''
      · refine Or.inr ⟨by omega, List.mem_cons_of_mem _ he'.2⟩
    · intro e he
      refine hE.pmono e ?_
      rw [hCpend]; exact he
    · intro e he
      rcases hE.pnew e he with he' | he'
      · rw [hCpend] at he'
        exact Or.inl he'
      · exact Or.inr he'
  · simp only [okVal]
    refine ⟨n0, hlkF, by omega, hcellF, by omega, by omega, ?_⟩
    exact okVal_mono v' (fun l' o' h => h) (fun e he => he)
      (fun i _ => rfl) (by omega) (Nat.le_refl _) hok

theorem fix_vstruct (fs : List Val) (off : Nat) (ctx : SerCtx)
    (hh : EmitH (sizeOfVal (.vstruct fs)) (uniqLabelsL fs)
      (headRawLabel (.vstruct fs)) off ctx)
    (hnsp : noSelfPointL fs = true) (ih : IHL fs) :
    FixGoal (.vstruct fs) off ctx := by
  have hle := sizeOfVal_vstruct_le fs
  have hEH : EmitH (sizeOfList fs) (uniqLabelsL fs) (headRawLabelL fs)
      off ctx := by
    refine ⟨hh.inv, by have := hh.bound; omega, ?_, hh.disj, hh.nd, ?_, ?_⟩
    · intro i h1 h2
      exact hh.fresh i h1 (by omega)
    · intro l o h heq
      have := hh.hoff l o h heq
      rw [headRawLabel_vstruct] at this
      exact this
    · intro e he
      have := hh.hint e he
      omega
  obtain ⟨hE, hok⟩ := ih off ctx hEH hnsp
  have hfix : fixVal (.vstruct fs) off ctx = fixList fs off ctx := rfl
  rw [FixGoal, hfix]
  exact ⟨EmitC_grow hE hle, hok⟩

theorem fixL_nil (off : Nat) (ctx : SerCtx) (hinv : CtxInv ctx) :
    FixGoalL [] off ctx := by
  exact ⟨EmitC_refl hinv off, trivial⟩

theorem fixL_cons (v : Val) (vs : List Val) (off : Nat) (ctx : SerCtx)
    (hh : EmitH (sizeOfList (v :: vs)) (uniqLabelsL (v :: vs))
      (headRawLabel v) off ctx)
    (hnsp : noSelfPointL (v :: vs) = true)
    (ihv : IHV v) (ihl : IHL vs) : FixGoalL (v :: vs) off ctx := by
  have hnsp2 : noSelfPoint v = true ∧ noSelfPointL vs = true := by
    simpa [noSelfPointL, Bool.and_eq_true] using hnsp
  have hnd1 : (uniqLabels v).Nodup := hh.nd.of_append_left
  have hnd2 : (uniqLabelsL vs).Nodup := hh.nd.of_append_right
  have hdisj12 : ∀ l ∈ uniqLabelsL vs, l ∉ uniqLabels v := by
    intro l h2 h1
    exact (List.disjoint_of_nodup_append hh.nd) h1 h2
  have hone : 1 ≤ sizeOfVal v := one_le_sizeOfVal v
  have hszc : sizeOfList (v :: vs) = sizeOfVal v + sizeOfList vs := rfl
  have hbound := hh.bound
  rw [hszc] at hbound
  have hEH1 : EmitH (sizeOfVal v) (uniqLabels v) (headRawLabel v) off ctx := by
    refine ⟨hh.inv, by omega, ?_, ?_, hnd1, hh.hoff, ?_⟩
    · intro i h1 h2
      exact hh.fresh i h1 (by rw [hszc]; omega)
    · intro l hl
      exact hh.disj l (List.mem_append.mpr (Or.inl hl))
    · intro e he
      have := hh.hint e he
      rw [hszc] at this
      omega
  obtain ⟨hE1, hok1⟩ := ihv off ctx hEH1 hnsp2.1
  set c1 := fixVal v off ctx with hc1
  have hEH2 : EmitH (sizeOfList vs) (uniqLabelsL vs) (headRawLabelL vs)
      (off + sizeOfVal v) c1 := by
    refine ⟨hE1.inv, by have := hE1.len; omega, ?_, ?_, hnd2, ?_, ?_⟩
    · intro i h1 h2
      rw [hE1.frame i (by omega) (by omega)]
      exact hh.fresh i (by omega) (by rw [hszc]; omega)
    · intro l hl
      rw [hE1.vsame l (hdisj12 l hl)]
      exact hh.disj l (List.mem_append.mpr (Or.inr hl))
    · intro l o hlk heq
      cases vs with
      | nil => simp [headRawLabelL]
      | cons v'' vs'' =>
        exfalso
        have hone2 : 1 ≤ sizeOfList (v'' :: vs'') := by
          have := one_le_sizeOfVal v''
          rw [sizeOfList_cons]
          omega
        rcases hE1.vnew _ (lookupV_mem hlk) with hm | hm
        · have := hh.hint _ hm
          rw [hszc] at this
          simp only at this
          omega
        · have := hm.1
          simp only at this
          omega
    · intro e he
      rcases hE1.vnew e he with hm | hm
      · have := hh.hint e hm
        rw [hszc] at this
        omega
      · have := hm.1
        omega
  obtain ⟨hE2, hok2⟩ := ihl (off + sizeOfVal v) c1 hEH2 hnsp2.2
  set c2 := fixList vs (off + sizeOfVal v) c1 with hc2
  have hfix : fixList (v :: vs) off ctx = c2 := rfl
  rw [FixGoalL, hfix]
  constructor
  · exact EmitC_trans hE1 hE2
  · refine ⟨?_, ?_⟩
    · refine okVal_mono v hE2.vmono hE2.pmono ?_ (Nat.le_refl _) hE2.len hok1
      intro i hi
      refine hE2.frame i ?_ ?_
      · have := hE1.len
        rcases hi with hi | hi <;> omega
      · rcases hi with hi | hi <;> omega
    · refine okList_mono vs (fun l o h => h) (fun e he => he)
        (fun i _ => rfl) hE1.len (Nat.le_refl _) hok2

theorem fix_vvec_cons (v : Val) (es : List Val) (off : Nat) (ctx : SerCtx)
    (hh : EmitH 3 (uniqLabelsL (v :: es)) none off ctx)
    (hnsp : noSelfPointL (v :: es) = true)
    (ih : IHL (v :: es)) : FixGoal (.vvec (v :: es)) off ctx := by
  set szL := sizeOfList (v :: es) with hszL
  have hszpos : 1 ≤ szL := by
    have := one_le_sizeOfVal v
    rw [hszL, sizeOfList_cons]
    omega
  have hofflt : off + 2 < ctx.buf.length := by have := hh.bound; omega
  obtain ⟨hc1, hc2, hc3, hc4, hc5, hc6⟩ := hh.inv
  set n0 := ctx.buf.length with hn0
  set cA := (reserve ctx szL).2 with hcA
  have hlenA : cA.buf.length = n0 + szL := reserve_buf_length ctx szL
  have hAvis : cA.vis = ctx.vis := rfl
  have hApend : cA.pending = ctx.pending := rfl
  have hAold : ∀ i, i < n0 → cA.buf[i]? = ctx.buf[i]? :=
    fun i hi => reserve_getElem?_old ctx szL i hi
  have hAnew : ∀ i, n0 ≤ i → i < n0 + szL → cA.buf[i]? = some (.raw 0) :=
    fun i hi1 hi2 => reserve_getElem?_new ctx szL i hi1 hi2
  have hEH : EmitH szL (uniqLabelsL (v :: es)) (headRawLabelL (v :: es))
      n0 cA := by
    refine ⟨CtxInv_reserve hh.inv szL, by omega, hAnew, ?_, hh.nd, ?_, ?_⟩
    · intro l hl
      rw [hAvis]
      exact hh.disj l hl
    · intro l o hlk heq
      exfalso
      rw [hAvis] at hlk
      have := hc1 _ (lookupV_mem hlk)
      omega
    · intro e he
      rw [hAvis] at he
      have := hc1 e he
      omega
  obtain ⟨hE, hokL⟩ := ih n0 cA hEH hnsp
  set cB := fixList (v :: es) n0 cA with hcB
  set cC := setCell cB off (.delta ((n0 : Int) - (off : Int))) with hcC
  set cD := setCell cC (off + 1) (.raw (v :: es).length) with hcD
  set cE := setCell cD (off + 2) (.raw (v :: es).length) with hcE
  have hfix : fixVal (.vvec (v :: es)) off ctx = cE := rfl
  have hlenB : cA.buf.length ≤ cB.buf.length := hE.len
  have hBold : ∀ i, i < n0 → cB.buf[i]? = ctx.buf[i]? := by
    intro i hi
    rw [hE.frame i (by omega) (by omega)]
    exact hAold i hi
  have hB0 : cB.buf[off]? = some (.raw 0) := by
    rw [hBold off (by omega)]
    exact hh.fresh off (Nat.le_refl _) (by omega)
  have hB1 : cB.buf[off + 1]? = some (.raw 0) := by
    rw [hBold (off + 1) (by omega)]
    exact hh.fresh (off + 1) (by omega) (by omega)
  have hB2 : cB.buf[off + 2]? = some (.raw 0) := by
    rw [hBold (off + 2) (by omega)]
    exact hh.fresh (off + 2) (by omega) (by omega)
  have hC1 : cC.buf[off + 1]? = some (.raw 0) := by
    rw [hcC, setCell_getElem?_ne _ _ _ _ (by omega)]
    exact hB1
  have hD2 : cD.buf[off + 2]? = some (.raw 0) := by
    rw [hcD, setCell_getElem?_ne _ _ _ _ (by omega), hcC,
      setCell_getElem?_ne _ _ _ _ (by omega)]
    exact hB2
  have hinvC : CtxInv cC := CtxInv_setCell _ hE.inv hB0
  have hinvD : CtxInv cD := CtxInv_setCell _ hinvC hC1
  have hinvE : CtxInv cE := CtxInv_setCell _ hinvD hD2
  have hEvis : cE.vis = cB.vis := rfl
  have hEpend : cE.pending = cB.pending := rfl
  have hlenE : cE.buf.length = cB.buf.length := by
    rw [hcE, setCell_buf_length, hcD, setCell_buf_length, hcC,
      setCell_buf_length]
  have hsz3 : sizeOfVal (.vvec (v :: es)) = 3 := rfl
  rw [FixGoal, hfix]
  constructor
  · refine ⟨hinvE, by omega, ?_, ?_, ?_, ?_, ?_, ?_, ?_⟩
    · intro i hi hni
      rw [hsz3] at hni
      rw [hcE, setCell_getElem?_ne _ _ _ _ (by omega), hcD,
        setCell_getElem?_ne _ _ _ _ (by omega), hcC,
        setCell_getElem?_ne _ _ _ _ (by omega)]
      exact hBold i hi
    · intro l o h
      rw [hEvis]
      refine hE.vmono l o ?_
      rw [hAvis]
      exact h
    · intro l hl
      rw [hEvis]
      exact hE.vcover l hl
    · intro l hl
      rw [hEvis, hE.vsame l hl, hAvis]
    · intro e he
      rw [hEvis] at he
      rcases hE.vnew e he with hm | hm
      · rw [hAvis] at hm
        exact Or.inl hm
      · exact Or.inr ⟨by omega, hm.2⟩
    · intro e he
      rw [hEpend]
      refine hE.pmono e ?_
      rw [hApend]
      exact he
    · intro e he
      rw [hEpend] at he
      rcases hE.pnew e he with hm | hm
      · rw [hApend] at hm
        exact Or.inl hm
      · exact Or.inr hm
  · simp only [okVal]
    refine ⟨n0, by omega, ?_, ?_, ?_, by omega, by omega, ?_⟩
    · rw [hcE, setCell_getElem?_ne _ _ _ _ (by omega), hcD,
        setCell_getElem?_ne _ _ _ _ (by omega), hcC]
      exact setCell_getElem?_self _ _ _ (by omega)
    · rw [hcE, setCell_getElem?_ne _ _ _ _ (by omega), hcD]
      exact setCell_getElem?_self _ _ _
        (by rw [hcC, setCell_buf_length]; omega)
    · rw [hcE]
      exact setCell_getElem?_self _ _ _
        (by rw [hcD, setCell_buf_length, hcC, setCell_buf_length]; omega)
    · refine okList_mono (v :: es) (fun l o h => h) (fun e he => he)
        ?_ (by omega) (by omega) hokL
      intro i hi
      rw [hcE, setCell_getElem?_ne _ _ _ _ (by omega), hcD,
        setCell_getElem?_ne _ _ _ _ (by omega), hcC,
        setCell_getElem?_ne _ _ _ _ (by omega)]

mutual

/-- Main induction: one serialization step is correct for every value. -/
theorem fix_ok (v : Val) : IHV v := by
  intro off ctx hh hnsp
  cases v with
  | scalar n => exact fix_scalar n off ctx hh
  | pad b => exact fix_pad b off ctx hh
  | rawptr t => exact fix_rawptr t off ctx hh
  | uniq t =>
    cases t with
    | none => exact fix_uniq_none off ctx hh
    | some lv =>
      obtain ⟨l, v'⟩ := lv
      exact fix_uniq_some l v' off ctx hh hnsp (fix_ok v')
  | vstr bs =>
    cases bs with
    | nil => exact fix_vstr_nil off ctx hh
    | cons b bs' => exact fix_vstr_cons b bs' off ctx hh
  | vstruct fs => exact fix_vstruct fs off ctx hh hnsp (fixList_ok fs)
  | vvec es =>
    cases es with
    | nil => exact fix_vvec_nil off ctx hh
    | cons e es' =>
      exact fix_vvec_cons e es' off ctx hh hnsp (fixList_ok (e :: es'))

/-- Main induction: serializing a field list is correct. -/
theorem fixList_ok (vs : List Val) : IHL vs := by
  intro off ctx hh hnsp
  cases vs with
  | nil => exact fixL_nil off ctx hh.inv
  | cons v vs' =>
    have hnsp2 : noSelfPointL (v :: vs') = true := hnsp
    exact fixL_cons v vs' off ctx hh hnsp2 (fix_ok v) (fixList_ok vs')

end

/-! ## Draining the pending queue -/

/-- Draining the pending queue succeeds whenever every pending origin is
visited, patches every pending slot with the resolved self-relative delta,
and leaves every meaningful (non-placeholder) cell unchanged. -/
theorem drain_ok (vis : List (Nat × Nat)) (pend : List (Nat × Nat))
    (buf : List Cell)
    (hnd : (pend.map Prod.snd).Nodup)
    (hph : ∀ e ∈ pend, buf[e.2]? = some Cell.phold)
    (hres : ∀ e ∈ pend, ∃ o, lookupV vis e.1 = some o ∧ e.2 < o) :
    ∃ buf2, drain vis pend buf = some buf2 ∧
      buf2.length = buf.length ∧
      (∀ (i : Nat) (c : Cell), buf[i]? = some c → c ≠ Cell.phold → buf2[i]? = some c) ∧
      (∀ e ∈ pend, ∃ o, lookupV vis e.1 = some o ∧ e.2 < o ∧
        buf2[e.2]? = some (.delta ((o : Int) - (e.2 : Int)))) := by
  induction pend generalizing buf with
  | nil =>
    refine ⟨buf, rfl, rfl, fun i c h _ => h, ?_⟩
    intro e he
    exact absurd he (List.not_mem_nil e)
  | cons e rest ih =>
    obtain ⟨l, s⟩ := e
    obtain ⟨o, ho, hso⟩ := hres (l, s) (List.mem_cons_self _ _)
    have hslt : s < buf.length :=
      lt_of_getElem?_some (hph (l, s) (List.mem_cons_self _ _))
    simp only [List.map_cons, List.nodup_cons] at hnd
    have hph1 : ∀ e' ∈ rest, (upd buf s
        (.delta ((o : Int) - (s : Int))))[e'.2]? = some Cell.phold := by
      intro e' he'
      have hne : s ≠ e'.2 := by
        intro heq
        exact hnd.1 (heq ▸ List.mem_map_of_mem Prod.snd he')
      rw [getElem?_upd_ne _ _ _ _ hne]
      exact hph e' (List.mem_cons_of_mem _ he')
    obtain ⟨buf2, hdr, hlen, hpres, hdone⟩ :=
      ih _ hnd.2 hph1 (fun e' he' => hres e' (List.mem_cons_of_mem _ he'))
    refine ⟨buf2, ?_, ?_, ?_, ?_⟩
    · simp only [drain, ho]
      exact hdr
    · rw [hlen, upd_length]
    · intro i c hc hcp
      have his : s ≠ i := by
        intro heq
        rw [← heq] at hc
        rw [hph (l, s) (List.mem_cons_self _ _)] at hc
        injection hc with hc
        exact hcp hc.symm
      refine hpres i c ?_ hcp
      rw [getElem?_upd_ne _ _ _ _ his]
      exact hc
    · intro e' he'
      rcases List.mem_cons.mp he' with he' | he'
      · rw [he']
        refine ⟨o, ho, hso, ?_⟩
        refine hpres s _ ?_ (by simp)
        exact getElem?_upd_self _ _ _ hslt
      · exact hdone e' he'

/-! ## From serialized correctness to deserialized structural equality -/

theorem map_resolve_delta (s : Nat) (d : Int) :
    Option.map (resolveCell s) (some (Cell.delta d)) =
      some (if d = 0 then Cell.ptr none
        else Cell.ptr (some ((s : Int) + d).toNat)) := rfl

theorem payload_to_matches {bufF B : List Cell} {p : Nat} {bs : List Nat}
    (h : payloadAt bufF p bs)
    (hpres : ∀ (i : Nat) (c : Cell), bufF[i]? = some c → c ≠ Cell.phold → B[i]? = some c) :
    payloadAt (deserializeG B) p bs := by
  induction bs generalizing p with
  | nil => trivial
  | cons b bs ih =>
    obtain ⟨h1, h2⟩ := h
    refine ⟨?_, ih h2⟩
    rw [deserializeG_getElem?, hpres p _ h1 (by simp)]
    rfl

mutual

/-- After the drain, all the content facts of `okVal` on the serialized
buffer become `matchesV` facts on the deserialized buffer. -/
theorem ok_to_matches (v : Val) {vis pend : List (Nat × Nat)}
    {bufF B : List Cell} {off lo hi : Nat}
    (hok : okVal vis pend bufF off lo hi v)
    (hpres : ∀ (i : Nat) (c : Cell), bufF[i]? = some c → c ≠ Cell.phold → B[i]? = some c)
    (hpend : ∀ e ∈ pend, ∃ o, lookupV vis e.1 = some o ∧ e.2 < o ∧
      B[e.2]? = some (.delta ((o : Int) - (e.2 : Int)))) :
    matchesV vis (deserializeG B) off v := by
  cases v with
  | scalar n =>
    simp only [okVal] at hok
    simp only [matchesV]
    rw [deserializeG_getElem?, hpres off _ hok (by simp)]
    rfl
  | pad b =>
    simp only [okVal] at hok
    simp only [matchesV]
    rw [deserializeG_getElem?, hpres off _ hok (by simp)]
    rfl
  | rawptr t =>
    cases t with
    | none =>
      simp only [okVal] at hok
      simp only [matchesV]
      rw [deserializeG_getElem?, hpres off _ hok (by simp)]
      rfl
    | some l =>
      simp only [okVal] at hok
      simp only [matchesV]
      rcases hok with ⟨o, hlk, hne, hcell⟩ | ⟨hmem, _⟩
      · refine ⟨o, hlk, ?_⟩
        rw [deserializeG_getElem?, hpres off _ hcell (by simp),
          map_resolve_delta, if_neg (by omega)]
        have harith : (((off : Nat) : Int) + ((o : Int) - (off : Int))).toNat
            = o := by omega
        rw [harith]
      · obtain ⟨o, hlk, hlt, hcell⟩ := hpend (l, off) hmem
        have hlt' : off < o := hlt
        have hcell' : B[off]? =
            some (Cell.delta ((o : Int) - (off : Int))) := hcell
        refine ⟨o, hlk, ?_⟩
        rw [deserializeG_getElem?, hcell', map_resolve_delta,
          if_neg (by omega)]
        have harith : (((off : Nat) : Int) + ((o : Int) - (off : Int))).toNat
            = o := by omega
        rw [harith]
  | uniq t =>
    cases t with
    | none =>
      simp only [okVal] at hok
      simp only [matchesV]
      rw [deserializeG_getElem?, hpres off _ hok (by simp)]
      rfl
    | some lv =>
      obtain ⟨l, v'⟩ := lv
      simp only [okVal] at hok
      simp only [matchesV]
      obtain ⟨o, hlk, hlt, hcell, _, _, hrec⟩ := hok
      refine ⟨o, hlk, ?_, ok_to_matches v' hrec hpres hpend⟩
      rw [deserializeG_getElem?, hpres off _ hcell (by simp),
        map_resolve_delta, if_neg (by omega)]
      have harith : (((off : Nat) : Int) + ((o : Int) - (off : Int))).toNat
          = o := by omega
      rw [harith]
  | vstr bs =>
    cases bs with
    | nil =>
      simp only [okVal] at hok
      simp only [matchesV]
      obtain ⟨h1, h2⟩ := hok
      constructor
      · rw [deserializeG_getElem?, hpres off _ h1 (by simp)]
        rfl
      · rw [deserializeG_getElem?, hpres (off + 1) _ h2 (by simp)]
        rfl
    | cons b bs' =>
      simp only [okVal] at hok
      simp only [matchesV]
      obtain ⟨p, hlt, hcell, hszc, _, _, hpl⟩ := hok
      refine ⟨p, ?_, ?_, payload_to_matches hpl hpres⟩
      · rw [deserializeG_getElem?, hpres off _ hcell (by simp),
          map_resolve_delta, if_neg (by omega)]
        have harith : (((off : Nat) : Int) + ((p : Int) - (off : Int))).toNat
            = p := by omega
        rw [harith]
      · rw [deserializeG_getElem?, hpres (off + 1) _ hszc (by simp)]
        rfl
  | vstruct fs =>
    simp only [okVal] at hok
    simp only [matchesV]
    exact okL_to_matches fs hok hpres hpend
  | vvec es =>
    cases es with
    | nil =>
      simp only [okVal] at hok
      simp only [matchesV]
      obtain ⟨h1, h2, h3⟩ := hok
      refine ⟨?_, ?_, ?_⟩
      · rw [deserializeG_getElem?, hpres off _ h1 (by simp)]
        rfl
      · rw [deserializeG_getElem?, hpres (off + 1) _ h2 (by simp)]
        rfl
      · rw [deserializeG_getElem?, hpres (off + 2) _ h3 (by simp)]
        rfl
    | cons e es' =>
      simp only [okVal] at hok
      simp only [matchesV]
      obtain ⟨p, hlt, hcell, hszc, hcap, _, _, hrec⟩ := hok
      refine ⟨p, ?_, ?_, ?_, okL_to_matches (e :: es') hrec hpres hpend⟩
      · rw [deserializeG_getElem?, hpres off _ hcell (by simp),
          map_resolve_delta, if_neg (by omega)]
        have harith : (((off : Nat) : Int) + ((p : Int) - (off : Int))).toNat
            = p := by omega
        rw [harith]
      · rw [deserializeG_getElem?, hpres (off + 1) _ hszc (by simp)]
        rfl
      · rw [deserializeG_getElem?, hpres (off + 2) _ hcap (by simp)]
        rfl

/-- `okList` to `matchesL` transfer. -/
theorem okL_to_matches (vs : List Val) {vis pend : List (Nat × Nat)}
    {bufF B : List Cell} {off lo hi : Nat}
    (hok : okList vis pend bufF off lo hi vs)
    (hpres : ∀ (i : Nat) (c : Cell), bufF[i]? = some c → c ≠ Cell.phold → B[i]? = some c)
    (hpend : ∀ e ∈ pend, ∃ o, lookupV vis e.1 = some o ∧ e.2 < o ∧
      B[e.2]? = some (.delta ((o : Int) - (e.2 : Int)))) :
    matchesL vis (deserializeG B) off vs := by
  cases vs with
  | nil => trivial
  | cons v vs' =>
    exact ⟨ok_to_matches v hok.1 hpres hpend,
      okL_to_matches vs' hok.2 hpres hpend⟩

end

/-! ## Top-level serializer correctness -/

/-- Full correctness of `serializeG` on well-formed graphs: serialization
succeeds, the deserialized buffer is structurally equal to the source graph
(via the visited map), every unique-owned object got an offset, and the
visited map is injective (distinct source objects stay distinct). -/
theorem serializeG_spec (g : Val) (hwf : wf g) :
    ∃ buf vis, serializeG g = some (buf, vis) ∧
      matchesV vis (deserializeG buf) 0 g ∧
      (∀ l ∈ uniqLabels g, ∃ o, lookupV vis l = some o) ∧
      (∀ l1 l2 o, lookupV vis l1 = some o → lookupV vis l2 = some o →
        l1 = l2) := by
  obtain ⟨hwf1, hwf2, hwf3⟩ := hwf
  set ctx0 : SerCtx := ⟨[], [], []⟩ with hctx0
  set cR := (reserve ctx0 (sizeOfVal g)).2 with hcR
  have hlenR : cR.buf.length = sizeOfVal g := by
    rw [hcR, reserve_buf_length]
    simp [hctx0]
  have hinvR : CtxInv cR := by
    refine ⟨?_, ?_, ?_, ?_, ?_, ?_⟩ <;> simp [hcR, reserve, hctx0, lookupV]
  have hEH : EmitH (sizeOfVal g) (uniqLabels g) (headRawLabel g) 0 cR := by
    refine ⟨hinvR, by omega, ?_, ?_, hwf1, ?_, ?_⟩
    · intro i h1 h2
      exact reserve_getElem?_new ctx0 (sizeOfVal g) i (by simp [hctx0])
        (by simp [hctx0]; omega)
    · intro l _
      rfl
    · intro l o h
      exact absurd h (by simp [hcR, reserve, hctx0, lookupV])
    · intro e he
      exact absurd he (by simp [hcR, reserve, hctx0])
  obtain ⟨hE, hok⟩ := fix_ok g 0 cR hEH hwf3
  set c1 := fixVal g 0 cR with hc1
  have hpendres : ∀ e ∈ c1.pending, ∃ o, lookupV c1.vis e.1 = some o ∧
      e.2 < o := by
    intro e he
    have hlab : e.1 ∈ rawLabels g := by
      rcases hE.pnew e he with hm | hm
      · exact absurd hm (by simp [hcR, reserve, hctx0])
      · exact hm
    obtain ⟨o, ho⟩ := hE.vcover e.1 (hwf2 e.1 hlab)
    exact ⟨o, ho, hE.inv.2.2.2.2.2 e he o ho⟩
  obtain ⟨buf2, hdr, hlen2, hpres, hdone⟩ := drain_ok c1.vis c1.pending
    c1.buf hE.inv.2.2.2.2.1 hE.inv.2.2.2.1 hpendres
  refine ⟨buf2, c1.vis, ?_, ?_, ?_, ?_⟩
  · show (match drain c1.vis c1.pending c1.buf with
      | some b => some (b, c1.vis)
      | none => none) = some (buf2, c1.vis)
    rw [hdr]
  · refine ok_to_matches g hok hpres ?_
    intro e he
    obtain ⟨o, ho, hlt, hcell⟩ := hdone e he
    exact ⟨o, ho, hlt, hcell⟩
  · exact hE.vcover
  · intro l1 l2 o h1 h2
    exact lookupV_inj hE.inv.2.2.1 h1 h2

/-! ## Extracting the per-object copies -/

mutual

/-- All `(label, pointee)` pairs of unique handles in a graph. -/
def uniqPairs : Val → List (Nat × Val)
  | .scalar _ => []
  | .pad _ => []
  | .rawptr _ => []
  | .uniq none => []
  | .uniq (some (l, v)) => (l, v) :: uniqPairs v
  | .vstr _ => []
  | .vstruct fs => uniqPairsL fs
  | .vvec es => uniqPairsL es

/-- `uniqPairs` over a list of values. -/
def uniqPairsL : List Val → List (Nat × Val)
  | [] => []
  | v :: vs => uniqPairs v ++ uniqPairsL vs

end

mutual

/-- From structural equality of the whole graph, every unique-owned object
has its single copy in the buffer at its assigned offset, matching its
source value. -/
theorem matches_uniqPairs (v : Val) {vis : List (Nat × Nat)}
    {buf : List Cell} {off : Nat} (h : matchesV vis buf off v) :
    ∀ l w, (l, w) ∈ uniqPairs v →
      ∃ o, lookupV vis l = some o ∧ matchesV vis buf o w := by
  cases v with
  | scalar n => intro l w hm; exact absurd hm (List.not_mem_nil _)
  | pad b => intro l w hm; exact absurd hm (List.not_mem_nil _)
  | rawptr t => intro l w hm; exact absurd hm (by cases t <;> simp [uniqPairs])
  | uniq t =>
    cases t with
    | none => intro l w hm; exact absurd hm (List.not_mem_nil _)
    | some lv =>
      obtain ⟨l', v'⟩ := lv
      intro l w hm
      simp only [matchesV] at h
      obtain ⟨o, hlk, _, hrec⟩ := h
      rcases List.mem_cons.mp hm with hm | hm
      · injection hm with hm1 hm2
        subst hm1; subst hm2
        exact ⟨o, hlk, hrec⟩
      · exact matches_uniqPairs v' hrec l w hm
  | vstr bs => intro l w hm; exact absurd hm (by simp [uniqPairs])
  | vstruct fs =>
    simp only [matchesV] at h
    exact matchesL_uniqPairs fs h
  | vvec es =>
    cases es with
    | nil => intro l w hm; exact absurd hm (List.not_mem_nil _)
    | cons e es' =>
      simp only [matchesV] at h
      obtain ⟨p, _, _, _, hrec⟩ := h
      exact matchesL_uniqPairs (e :: es') hrec

/-- List version of `matches_uniqPairs`. -/
theorem matchesL_uniqPairs (vs : List Val) {vis : List (Nat × Nat)}
    {buf : List Cell} {off : Nat} (h : matchesL vis buf off vs) :
    ∀ l w, (l, w) ∈ uniqPairsL vs →
      ∃ o, lookupV vis l = some o ∧ matchesV vis buf o w := by
  cases vs with
  | nil => intro l w hm; exact absurd hm (List.not_mem_nil _)
  | cons v vs' =>
    intro l w hm
    rcases List.mem_append.mp hm with hm | hm
    · exact matches_uniqPairs v h.1 l w hm
    · exact matchesL_uniqPairs vs' h.2 l w hm

end

/-! ## Claim C1: round-trip structural equality -/

/-- C1: For every graph of a supported type (built from scalars,
`cista::string`, `cista::vector`, `cista::unique_ptr`, raw pointers into
unique-owned objects; well-formedness also carries the spec's explicit
restrictions: exclusive unique ownership and no self-pointing slots),
deserializing the buffer produced by serializing the graph yields a graph
structurally equal to it: same field values cell by cell, same sharing
pattern (all references resolve through one injective visited map), and
same cycles (back-edges resolve to the very offsets of their target
copies). -/
theorem cista_roundtrip (g : Val) (hwf : wf g) :
    ∃ buf vis, serializeG g = some (buf, vis) ∧
      matchesV vis (deserializeG buf) 0 g ∧
      (∀ l1 l2 o, lookupV vis l1 = some o → lookupV vis l2 = some o →
        l1 = l2) := by
  obtain ⟨buf, vis, h1, h2, _, h4⟩ := serializeG_spec g hwf
  exact ⟨buf, vis, h1, h2, h4⟩

/-- A cyclic example graph in the style of the README: three nodes
A, B, C with edges A to B, B to C, C to A (a cycle through raw pointers),
nodes owning their name strings and edge lists. -/
def gEx : Val :=
  .vstruct
    [.vvec
        [.uniq (some (1, .vstruct
          [.scalar 0, .pad 0, .vvec [.rawptr (some 4)], .vstr [78, 65]])),
          .uniq (some (2, .vstruct
            [.scalar 1, .pad 0, .vvec [.rawptr (some 5)], .vstr [78, 66]])),
          .uniq (some (3, .vstruct
            [.scalar 2, .pad 0, .vvec [.rawptr (some 6)], .vstr [78, 67]]))],
      .vvec
        [.uniq (some (4, .vstruct [.rawptr (some 1), .rawptr (some 2)])),
          .uniq (some (5, .vstruct [.rawptr (some 2), .rawptr (some 3)])),
          .uniq (some (6, .vstruct [.rawptr (some 3), .rawptr (some 1)]))],
      .scalar 3, .pad 0]

/-- Witness for C1 at the concrete cyclic triangle graph. -/
theorem cista_roundtrip_witness :
    wf gEx ∧
      (∃ buf vis, serializeG gEx = some (buf, vis) ∧
        matchesV vis (deserializeG buf) 0 gEx ∧
        (∀ l1 l2 o, lookupV vis l1 = some o → lookupV vis l2 = some o →
          l1 = l2)) :=
  ⟨by decide, cista_roundtrip gEx (by decide)⟩

/-! ## Claim C7: single copy and aliasing preservation -/

/-- C7: For every well-formed source graph, each unique-owned object -
including those reachable multiple times via raw pointers - is written
exactly once: the visited map assigns it a single offset holding its one
matching copy, the assignment is injective, and any two raw pointers that
aliased one source object resolve, after the round trip, to the same
single offset. -/
theorem cista_single_copy (g : Val) (hwf : wf g) :
    ∃ buf vis, serializeG g = some (buf, vis) ∧
      (∀ l w, (l, w) ∈ uniqPairs g → ∃ o, lookupV vis l = some o ∧
        matchesV vis (deserializeG buf) o w) ∧
      (∀ l1 l2 o, lookupV vis l1 = some o → lookupV vis l2 = some o →
        l1 = l2) ∧
      (∀ off1 off2 l,
        matchesV vis (deserializeG buf) off1 (.rawptr (some l)) →
        matchesV vis (deserializeG buf) off2 (.rawptr (some l)) →
        ∃ o, (deserializeG buf)[off1]? = some (.ptr (some o)) ∧
          (deserializeG buf)[off2]? = some (.ptr (some o))) := by
  obtain ⟨buf, vis, h1, h2, h3, h4⟩ := serializeG_spec g hwf
  refine ⟨buf, vis, h1, ?_, h4, ?_⟩
  · intro l w hm
    exact matches_uniqPairs g h2 l w hm
  · intro off1 off2 l hm1 hm2
    simp only [matchesV] at hm1 hm2
    obtain ⟨o1, ho1, hc1⟩ := hm1
    obtain ⟨o2, ho2, hc2⟩ := hm2
    rw [ho1] at ho2
    injection ho2 with ho2
    exact ⟨o1, hc1, ho2 ▸ hc2⟩

/-- Witness for C7 at the concrete cyclic triangle graph. -/
theorem cista_single_copy_witness :
    wf gEx ∧
      (∃ buf vis, serializeG gEx = some (buf, vis) ∧
        (∀ l w, (l, w) ∈ uniqPairs gEx → ∃ o, lookupV vis l = some o ∧
          matchesV vis (deserializeG buf) o w) ∧
        (∀ l1 l2 o, lookupV vis l1 = some o → lookupV vis l2 = some o →
          l1 = l2) ∧
        (∀ off1 off2 l,
          matchesV vis (deserializeG buf) off1 (.rawptr (some l)) →
          matchesV vis (deserializeG buf) off2 (.rawptr (some l)) →
          ∃ o, (deserializeG buf)[off1]? = some (.ptr (some o)) ∧
            (deserializeG buf)[off2]? = some (.ptr (some o)))) :=
  ⟨by decide, cista_single_copy gEx (by decide)⟩

/-! ## Claim C9: deterministic buffers given zeroed padding -/

mutual

/-- All padding/spare bytes of the source aggregates are zeroed. -/
def padsOk : Val → Bool
  | .scalar _ => true
  | .pad b => b = 0
  | .rawptr _ => true
  | .uniq none => true
  | .uniq (some (_, v)) => padsOk v
  | .vstr _ => true
  | .vstruct fs => padsOkL fs
  | .vvec es => padsOkL es

/-- `padsOk` over a list of values. -/
def padsOkL : List Val → Bool
  | [] => true
  | v :: vs => padsOk v && padsOkL vs

end

mutual

/-- Two source graphs describe the same logical content: equal except
possibly in the values of padding/spare bytes (the only part of a source
aggregate the serializer copies without the caller controlling it
logically). -/
def equivVal : Val → Val → Bool
  | .scalar n, .scalar m => n = m
  | .pad _, .pad _ => true
  | .rawptr t, .rawptr u => t = u
  | .uniq none, .uniq none => true
  | .uniq (some (l, v)), .uniq (some (m, w)) => l = m && equivVal v w
  | .vstr bs, .vstr cs => bs = cs
  | .vstruct fs, .vstruct gs => equivL fs gs
  | .vvec es, .vvec fs => equivL es fs
  | _, _ => false

/-- `equivVal` over lists of values. -/
def equivL : List Val → List Val → Bool
  | [], [] => true
  | v :: vs, w :: ws => equivVal v w && equivL vs ws
  | _, _ => false

end

mutual

/-- Two logically equal graphs whose padding is zeroed are identical. -/
theorem equiv_zero_eq (v w : Val) (he : equivVal v w = true)
    (h1 : padsOk v = true) (h2 : padsOk w = true) : v = w := by
  cases v with
  | scalar n =>
    cases w <;> simp [equivVal] at he
    rw [he]
  | pad b =>
    cases w with
    | pad c =>
      simp only [padsOk, decide_eq_true_eq] at h1 h2
      rw [h1, h2]
    | scalar n => simp [equivVal] at he
    | rawptr t => simp [equivVal] at he
    | uniq t => simp [equivVal] at he
    | vstr bs => simp [equivVal] at he
    | vstruct fs => simp [equivVal] at he
    | vvec es => simp [equivVal] at he
  | rawptr t =>
    cases w <;> simp [equivVal] at he
    rw [he]
  | uniq t =>
    cases t with
    | none =>
      cases w with
      | uniq u =>
        cases u with
        | none => rfl
        | some mw => obtain ⟨m, w'⟩ := mw; simp [equivVal] at he
      | scalar n => simp [equivVal] at he
      | pad b => simp [equivVal] at he
      | rawptr u => simp [equivVal] at he
      | vstr bs => simp [equivVal] at he
      | vstruct fs => simp [equivVal] at he
      | vvec es => simp [equivVal] at he
    | some lv =>
      obtain ⟨l, v'⟩ := lv
      cases w with
      | uniq u =>
        cases u with
        | none => simp [equivVal] at he
        | some mw =>
          obtain ⟨m, w'⟩ := mw
          simp only [equivVal, Bool.and_eq_true, decide_eq_true_eq] at he
          have := equiv_zero_eq v' w' he.2 h1 h2
          rw [he.1, this]
      | scalar n => simp [equivVal] at he
      | pad b => simp [equivVal] at he
      | rawptr u => simp [equivVal] at he
      | vstr bs => simp [equivVal] at he
      | vstruct fs => simp [equivVal] at he
      | vvec es => simp [equivVal] at he
  | vstr bs =>
    cases w <;> simp [equivVal] at he
    rw [he]
  | vstruct fs =>
    cases w <;> simp [equivVal] at he
    have := equivL_zero_eq fs _ he h1 h2
    rw [this]
  | vvec es =>
    cases w <;> simp [equivVal] at he
    have := equivL_zero_eq es _ he h1 h2
    rw [this]

/-- List version of `equiv_zero_eq`. -/
theorem equivL_zero_eq (vs ws : List Val) (he : equivL vs ws = true)
    (h1 : padsOkL vs = true) (h2 : padsOkL ws = true) : vs = ws := by
  cases vs with
  | nil =>
    cases ws with
    | nil => rfl
    | cons w ws' => simp [equivL] at he
  | cons v vs' =>
    cases ws with
    | nil => simp [equivL] at he
    | cons w ws' =>
      simp only [equivL, Bool.and_eq_true] at he
      simp only [padsOkL, Bool.and_eq_true] at h1 h2
      rw [equiv_zero_eq v w he.1 h1.1 h2.1,
        equivL_zero_eq vs' ws' he.2 h1.2 h2.2]

end

/-- C9: For any two source graphs with the same logical content whose
aggregates have all padding/spare bytes zeroed, serialization produces
identical buffers - the emitted cells are a deterministic function of the
logical source graph (the only nondeterminism a caller can inject is spare
bytes, which the zeroing hypothesis removes). -/
theorem cista_serialize_deterministic (g g' : Val)
    (hz : padsOk g = true) (hz' : padsOk g' = true)
    (he : equivVal g g' = true) :
    serializeG g = serializeG g' := by
  rw [equiv_zero_eq g g' he hz hz']

/-- Witness for C9: a struct with a zeroed spare byte, written as two
syntactically distinct but logically equal graphs. -/
theorem cista_serialize_deterministic_witness :
    padsOk (Val.vstruct [.scalar 5, .pad 0]) = true ∧
      padsOk (Val.vstruct [.scalar 5, .pad (1 - 1)]) = true ∧
      equivVal (Val.vstruct [.scalar 5, .pad 0])
        (Val.vstruct [.scalar 5, .pad (1 - 1)]) = true ∧
      serializeG (Val.vstruct [.scalar 5, .pad 0]) =
        serializeG (Val.vstruct [.scalar 5, .pad (1 - 1)]) :=
  ⟨by decide, by decide, by decide,
    cista_serialize_deterministic _ _ (by decide) (by decide) (by decide)⟩

/-! ## Claim C4: offset pointer semantics -/

/-- Modelled from the spec: offset-pointer assignment from an address
(spec section 4.1) - store `a - &self` for a non-null address, `0` for
null.  Addresses are modelled as integers; `self` is the slot's own
address. -/
def optrAssign (self : Int) (a : Option Int) : Int :=
  match a with
  | none => 0
  | some x => x - self

/-- Modelled from the spec: offset-pointer resolution - a stored delta of
`0` yields null, any other delta `d` yields the address `&self + d`. -/
def optrResolve (self d : Int) : Option Int :=
  if d = 0 then none else some (self + d)

/-- Modelled from the spec: is-null - the stored delta equals `0`. -/
def optrIsNull (d : Int) : Bool := d = 0

/-- C4: For every offset-pointer slot, stored value 0 denotes null and a
non-zero stored value `d` denotes the target `&slot + d`; assigning a
non-null address `a` stores `a - &slot`, assigning null stores 0, is-null
holds exactly when the stored delta is 0, and resolution after assignment
returns the assigned address (for targets other than the slot itself,
which the spec forbids). -/
theorem optr_semantics (self x d : Int) :
    optrAssign self none = 0 ∧
    optrAssign self (some x) = x - self ∧
    optrResolve self 0 = none ∧
    (d ≠ 0 → optrResolve self d = some (self + d)) ∧
    (optrIsNull d = true ↔ d = 0) ∧
    (x ≠ self → optrResolve self (optrAssign self (some x)) = some x) := by
  refine ⟨rfl, rfl, rfl, ?_, ?_, ?_⟩
  · intro h
    rw [optrResolve, if_neg h]
  · simp [optrIsNull]
  · intro h
    show optrResolve self (x - self) = some x
    rw [optrResolve, if_neg (by omega)]
    congr 1
    omega

/-- Witness for C4 at concrete addresses: slot at 10, target at 7. -/
theorem optr_semantics_witness :
    optrAssign 10 none = 0 ∧
    optrAssign 10 (some 7) = 7 - 10 ∧
    optrResolve 10 0 = none ∧
    ((3 : Int) ≠ 0 → optrResolve 10 3 = some (10 + 3)) ∧
    (optrIsNull 3 = true ↔ (3 : Int) = 0) ∧
    ((7 : Int) ≠ 10 → optrResolve 10 (optrAssign 10 (some 7)) = some 7) :=
  optr_semantics 10 7 3

/-! ## Claim C5: aligned writes of the serialization context -/

/-- Modelled from the spec: round `pos` up to the next multiple of `al`. -/
def alignUp (pos al : Nat) : Nat :=
  if al = 0 then pos else pos + (al - pos % al) % al

/-- Modelled from the spec: `serialization_context::write(ptr, size,
alignment)` at byte level - align the current buffer end up to the
requested alignment, append the bytes there, and return the aligned start
offset. -/
def scWrite (buf bytes : List Nat) (al : Nat) : Nat × List Nat :=
  let start := alignUp buf.length al
  (start, buf ++ List.replicate (start - buf.length) 0 ++ bytes)

theorem alignUp_ge (pos al : Nat) : pos ≤ alignUp pos al := by
  unfold alignUp
  split <;> omega

theorem alignUp_mod (pos al : Nat) (h : 0 < al) : alignUp pos al % al = 0 := by
  unfold alignUp
  rw [if_neg (by omega)]
  rcases Nat.eq_zero_or_pos (pos % al) with h0 | h0
  · rw [h0, Nat.sub_zero, Nat.mod_self, Nat.add_zero]
    exact h0
  · have hlt : pos % al < al := Nat.mod_lt pos h
    have hr : (al - pos % al) % al = al - pos % al :=
      Nat.mod_eq_of_lt (by omega)
    rw [hr]
    have h2 : pos + (al - pos % al) = al * (pos / al) + al := by
      have := Nat.div_add_mod pos al
      omega
    rw [h2, Nat.mul_add_mod]
    exact Nat.mod_self al

/-- C5: `write(bytes, size, alignment)` first rounds the buffer length up
to the alignment, appends the bytes at that aligned position, and returns
the aligned start offset - so the offset is a multiple of the alignment
and the buffer grows by exactly the padding plus the byte count. -/
theorem scWrite_spec (buf bytes : List Nat) (al : Nat) (h : 0 < al) :
    (scWrite buf bytes al).1 = alignUp buf.length al ∧
    (scWrite buf bytes al).1 % al = 0 ∧
    buf.length ≤ (scWrite buf bytes al).1 ∧
    (scWrite buf bytes al).2 =
      buf ++ List.replicate ((scWrite buf bytes al).1 - buf.length) 0 ++
        bytes ∧
    (scWrite buf bytes al).2.length =
      (scWrite buf bytes al).1 + bytes.length ∧
    (∀ k, (scWrite buf bytes al).2[(scWrite buf bytes al).1 + k]? =
      bytes[k]?) := by
  have hge := alignUp_ge buf.length al
  refine ⟨rfl, alignUp_mod buf.length al h, hge, rfl, ?_, ?_⟩
  · show (buf ++ List.replicate (alignUp buf.length al - buf.length) 0 ++
      bytes).length = alignUp buf.length al + bytes.length
    simp [List.length_append, List.length_replicate]
    omega
  · intro k
    show (buf ++ List.replicate (alignUp buf.length al - buf.length) 0 ++
      bytes)[alignUp buf.length al + k]? = bytes[k]?
    have hlen : (buf ++
        List.replicate (alignUp buf.length al - buf.length) 0).length =
        alignUp buf.length al := by
      simp [List.length_append, List.length_replicate]
      omega
    rw [List.getElem?_append_right (by omega), hlen]
    congr 1
    omega

/-- Witness for C5: three bytes in the buffer, alignment four. -/
theorem scWrite_spec_witness :
    0 < 4 ∧
      ((scWrite [1, 2, 3] [9, 9] 4).1 = alignUp [1, 2, 3].length 4 ∧
        (scWrite [1, 2, 3] [9, 9] 4).1 % 4 = 0 ∧
        [1, 2, 3].length ≤ (scWrite [1, 2, 3] [9, 9] 4).1 ∧
        (scWrite [1, 2, 3] [9, 9] 4).2 =
          [1, 2, 3] ++
            List.replicate
              ((scWrite [1, 2, 3] [9, 9] 4).1 - [1, 2, 3].length) 0 ++
            [9, 9] ∧
        (scWrite [1, 2, 3] [9, 9] 4).2.length =
          (scWrite [1, 2, 3] [9, 9] 4).1 + [9, 9].length ∧
        (∀ k, (scWrite [1, 2, 3] [9, 9] 4).2[(scWrite
            [1, 2, 3] [9, 9] 4).1 + k]? = [9, 9][k]?)) :=
  ⟨by decide, scWrite_spec [1, 2, 3] [9, 9] 4 (by decide)⟩

/-! ## Claim C6: bounds checking of the deserialization context -/

/-- Modelled from the spec: deserialization context - pointer to the
buffer start and the buffer length (spec section 4.5). -/
structure DeserCtx : Type where
  base : Nat
  size : Nat

/-- Modelled from the spec: `check(ptr, n)` succeeds unless `ptr < base`
or `ptr + n > base + size`. -/
def dcCheck (c : DeserCtx) (ptr n : Nat) : Bool :=
  decide (c.base ≤ ptr) && decide (ptr + n ≤ c.base + c.size)

/-- Checked deserialization of one slot at index `s` of a buffer with
`len` cells: a non-null stored delta is resolved and bounds-checked
through `dcCheck` (relative to base 0); a failed check is error kind 3
(out-of-bounds pointer). -/
def checkedResolve (len s : Nat) : Cell → Except Nat Cell
  | .delta d =>
      if d = 0 then .ok (.ptr none)
      else if ((s : Int) + d) < 0 then .error 3
      else if dcCheck ⟨0, len⟩ ((s : Int) + d).toNat 1 then
        .ok (.ptr (some ((s : Int) + d).toNat))
      else .error 3
  | c => .ok c

/-- Modelled from the spec: the checked deserialization pass - like the
unchecked pass but every resolved pointer goes through `check`. -/
def checkedFrom (len s : Nat) : List Cell → Except Nat (List Cell)
  | [] => .ok []
  | c :: cs => do
      let c' ← checkedResolve len s c
      let cs' ← checkedFrom len (s + 1) cs
      return (c' :: cs')

/-- Checked deserialization of a whole buffer. -/
def checkedDeserializeG (buf : List Cell) : Except Nat (List Cell) :=
  checkedFrom buf.length 0 buf

/-- C6: `check(ptr, n)` fails exactly when `ptr < base` or
`ptr + n > base + size` (some byte of the range lies outside the buffer),
and succeeds otherwise; consequently a checked deserialize of a
handcrafted buffer whose single offset-pointer slot stores a delta
pointing past the buffer end reports error kind 3 (out-of-bounds). -/
theorem dcCheck_spec :
    (∀ (c : DeserCtx) (ptr n : Nat),
      dcCheck c ptr n = false ↔
        (ptr < c.base ∨ c.base + c.size < ptr + n)) ∧
    checkedDeserializeG [Cell.delta 5] = .error 3 := by
  constructor
  · intro c ptr n
    simp [dcCheck]
    omega
  · rfl

/-! ## Claim C8: mode flags and envelope verification -/

/-- Modelled from the spec: the mode flag bit set.  `withVersion` is
`WITH_VERSION`/`WITH_STATIC_VERSION` (embed and check the 64-bit
structural type hash of the root type), `withIntegrity` is
`WITH_INTEGRITY` (embed and check a 64-bit content hash over the payload),
`unchecked` is `UNCHECKED` (skip bounds validation during deserialize). -/
structure Mode : Type where
  withVersion : Bool
  withIntegrity : Bool
  unchecked : Bool
deriving DecidableEq, Repr

/-- Default mode of the io layer in `include/cista/io.h`:
`mode::WITH_STATIC_VERSION | mode::WITH_INTEGRITY`. -/
def defaultMode : Mode := ⟨true, true, false⟩

/-- Modelled from the spec: a fast non-cryptographic 64-bit content
hash. -/
def hash64 (bs : List Nat) : Nat :=
  bs.foldl (fun h b => (h * 31 + b + 1) % 18446744073709551616)
    14695981039346656037

theorem hash64_lt (bs : List Nat) : hash64 bs < 18446744073709551616 := by
  have hgen : ∀ (cs : List Nat) (acc : Nat), acc < 18446744073709551616 →
      List.foldl (fun h b => (h * 31 + b + 1) % 18446744073709551616) acc cs
        < 18446744073709551616 := by
    intro cs
    induction cs with
    | nil => intro acc h; exact h
    | cons b cs ih =>
      intro acc h
      exact ih _ (Nat.mod_lt _ (by norm_num))
  exact hgen bs _ (by norm_num)

/-- Little-endian 8-byte encoding of a 64-bit value. -/
def toBytes64 (h : Nat) : List Nat :=
  [h % 256, h / 256 % 256, h / 65536 % 256, h / 16777216 % 256,
    h / 4294967296 % 256, h / 1099511627776 % 256,
    h / 281474976710656 % 256, h / 72057594037927936 % 256]

theorem toBytes64_length (h : Nat) : (toBytes64 h).length = 8 := rfl

theorem toBytes64_inj {a b : Nat} (ha : a < 18446744073709551616)
    (hb : b < 18446744073709551616) (h : toBytes64 a = toBytes64 b) :
    a = b := by
  simp [toBytes64] at h
  omega

/-- Modelled from the spec: envelope layout - a leading 8-byte type hash
when `WITH_VERSION`, the payload, and a trailing 8-byte content hash over
the payload when `WITH_INTEGRITY`. -/
def envEncode (m : Mode) (typeHash : Nat) (payload : List Nat) :
    List Nat :=
  (if m.withVersion then toBytes64 typeHash else []) ++ payload ++
    (if m.withIntegrity then toBytes64 (hash64 payload) else [])

/-- Modelled from the spec: version check of the envelope - when
`WITH_VERSION` is set, the leading 8 bytes must equal the expected type
hash (error kind 1 otherwise) and are stripped. -/
def envDecodeV (m : Mode) (expected : Nat) (bytes : List Nat) :
    Except Nat (List Nat) :=
  if m.withVersion then
    if 8 ≤ bytes.length ∧ bytes.take 8 = toBytes64 expected then
      .ok (bytes.drop 8)
    else .error 1
  else .ok bytes

/-- Modelled from the spec: integrity check of the envelope - when
`WITH_INTEGRITY` is set, the trailing 8 bytes must equal the hash of the
rest (error kind 2 otherwise) and are stripped. -/
def envDecodeI (m : Mode) (rest : List Nat) : Except Nat (List Nat) :=
  if m.withIntegrity then
    if 8 ≤ rest.length ∧
        rest.drop (rest.length - 8) =
          toBytes64 (hash64 (rest.take (rest.length - 8))) then
      .ok (rest.take (rest.length - 8))
    else .error 2
  else .ok rest

/-- Modelled from the spec: envelope validation before traversal - verify
the embedded type hash against the compile-time hash of the expected root
type, then the payload hash when enabled, and return the payload. -/
def envDecode (m : Mode) (expected : Nat) (bytes : List Nat) :
    Except Nat (List Nat) :=
  match envDecodeV m expected bytes with
  | .error e => .error e
  | .ok rest => envDecodeI m rest

theorem envDecodeV_strip (m : Mode) (th : Nat) (rest : List Nat) :
    envDecodeV m th
      ((if m.withVersion then toBytes64 th else []) ++ rest) = .ok rest := by
  unfold envDecodeV
  cases hv : m.withVersion with
  | false => simp
  | true =>
    simp only [if_true]
    rw [if_pos]
    · rw [List.drop_left' (toBytes64_length th)]
    · constructor
      · simp [toBytes64_length]
      · exact List.take_left' (toBytes64_length th)

theorem envDecodeI_strip (m : Mode) (p : List Nat) :
    envDecodeI m
      (p ++ (if m.withIntegrity then toBytes64 (hash64 p) else [])) =
      .ok p := by
  unfold envDecodeI
  cases hi : m.withIntegrity with
  | false => simp
  | true =>
    simp only [if_true]
    have hlen : (p ++ toBytes64 (hash64 p)).length = p.length + 8 := by
      simp [toBytes64_length]
    have hsub : (p ++ toBytes64 (hash64 p)).length - 8 = p.length := by
      omega
    have htake : (p ++ toBytes64 (hash64 p)).take
        ((p ++ toBytes64 (hash64 p)).length - 8) = p := by
      rw [hsub]
      exact List.take_left' rfl
    have hdrop : (p ++ toBytes64 (hash64 p)).drop
        ((p ++ toBytes64 (hash64 p)).length - 8) = toBytes64 (hash64 p) := by
      rw [hsub]
      exact List.drop_left' rfl
    rw [if_pos]
    · rw [htake]
    · refine ⟨by omega, ?_⟩
      rw [hdrop, htake]

theorem envEncode_assoc (m : Mode) (th : Nat) (p : List Nat) :
    envEncode m th p =
      (if m.withVersion then toBytes64 th else []) ++
        (p ++ (if m.withIntegrity then toBytes64 (hash64 p) else [])) := by
  unfold envEncode
  rw [List.append_assoc]

/-- C8: The recognized mode flags include `WITH_VERSION` (embed and check
a 64-bit structural type hash) and `WITH_INTEGRITY` (embed and check a
64-bit content hash), both set in the io default mode; before traversal,
decoding verifies the embedded type hash against the expected root type's
hash and the payload hash when enabled - a matching envelope is accepted
with the payload returned, a type-hash mismatch is rejected with error
kind 1 (version mismatch), and a tampered payload is rejected with error
kind 2 (integrity mismatch). -/
theorem envelope_verification (m : Mode) (th th' : Nat) (p p' : List Nat) :
    defaultMode.withVersion = true ∧ defaultMode.withIntegrity = true ∧
    envDecode m th (envEncode m th p) = .ok p ∧
    (m.withVersion = true → th < 18446744073709551616 →
      th' < 18446744073709551616 → th ≠ th' →
      envDecode m th' (envEncode m th p) = .error 1) ∧
    (m.withIntegrity = true → hash64 p' ≠ hash64 p →
      envDecode m th ((if m.withVersion then toBytes64 th else []) ++
        (p' ++ toBytes64 (hash64 p))) = .error 2) := by
  refine ⟨rfl, rfl, ?_, ?_, ?_⟩
  · rw [envEncode_assoc]
    unfold envDecode
    rw [envDecodeV_strip]
    exact envDecodeI_strip m p
  · intro hv hth hth' hne
    rw [envEncode_assoc]
    unfold envDecode
    have hstep : envDecodeV m th'
        ((if m.withVersion then toBytes64 th else []) ++
          (p ++ (if m.withIntegrity then toBytes64 (hash64 p) else []))) =
        .error 1 := by
      unfold envDecodeV
      rw [hv]
      simp only [if_true]
      rw [if_neg]
      intro hcond
      have htk : ((toBytes64 th) ++
          (p ++ (if m.withIntegrity then toBytes64 (hash64 p)
            else []))).take 8 = toBytes64 th :=
        List.take_left' (toBytes64_length th)
      rw [htk] at hcond
      exact hne (toBytes64_inj hth hth' hcond.2)
    rw [hstep]
  · intro hi hne
    unfold envDecode
    rw [envDecodeV_strip]
    unfold envDecodeI
    rw [hi]
    simp only [if_true]
    have hlen : (p' ++ toBytes64 (hash64 p)).length = p'.length + 8 := by
      simp [toBytes64_length]
    have hsub : (p' ++ toBytes64 (hash64 p)).length - 8 = p'.length := by
      omega
    rw [if_neg]
    intro hcond
    obtain ⟨hc1, hc2⟩ := hcond
    rw [hsub, List.take_left' rfl, List.drop_left' rfl] at hc2
    exact hne (toBytes64_inj (hash64_lt p) (hash64_lt p') hc2).symm

/-- Witness for C8 on concrete data: payload `[7]`, tampered payload
`[8]`, type hashes 1 and 2, default mode. -/
theorem envelope_verification_witness :
    (defaultMode.withVersion = true ∧ defaultMode.withIntegrity = true ∧
      envDecode defaultMode 1 (envEncode defaultMode 1 [7]) = .ok [7] ∧
      (defaultMode.withVersion = true → 1 < 18446744073709551616 →
        2 < 18446744073709551616 → (1 : Nat) ≠ 2 →
        envDecode defaultMode 2 (envEncode defaultMode 1 [7]) =
          .error 1) ∧
      (defaultMode.withIntegrity = true → hash64 [8] ≠ hash64 [7] →
        envDecode defaultMode 1
          ((if defaultMode.withVersion then toBytes64 1 else []) ++
            ([8] ++ toBytes64 (hash64 [7]))) = .error 2)) ∧
    (1 : Nat) ≠ 2 ∧ hash64 [8] ≠ hash64 [7] :=
  ⟨envelope_verification defaultMode 1 2 [7] [8], by decide, by decide⟩

/-! ## Buffer length facts for the io layer -/

mutual

theorem fixVal_len (v : Val) (off : Nat) (ctx : SerCtx) :
    ctx.buf.length ≤ (fixVal v off ctx).buf.length := by
  cases v with
  | scalar n => simp [fixVal, setCell, upd_length]
  | pad b => simp [fixVal, setCell, upd_length]
  | rawptr t =>
    cases t with
    | none => simp [fixVal, setCell, upd_length]
    | some l =>
      cases hl : lookupV ctx.vis l with
      | some o => simp [fixVal, hl, setCell, upd_length]
      | none => simp [fixVal, hl, setCell, upd_length]
  | uniq t =>
    cases t with
    | none => simp [fixVal, setCell, upd_length]
    | some lv =>
      obtain ⟨l, v'⟩ := lv
      cases hl : lookupV ctx.vis l with
      | some o => simp [fixVal, hl, setCell, upd_length]
      | none =>
        have hfix : fixVal (.uniq (some (l, v'))) off ctx =
            fixVal v' ctx.buf.length
              (setCell
                { (reserve ctx (sizeOfVal v')).2 with
                    vis := (l, ctx.buf.length) ::
                      (reserve ctx (sizeOfVal v')).2.vis }
                off (.delta ((ctx.buf.length : Int) - (off : Int)))) := by
          simp only [fixVal, hl]
          rfl
        rw [hfix]
        refine Nat.le_trans ?_ (fixVal_len v' _ _)
        rw [setCell_buf_length]
        show ctx.buf.length ≤ (reserve ctx (sizeOfVal v')).2.buf.length
        rw [reserve_buf_length]
        omega
  | vstr bs =>
    cases bs with
    | nil => simp [fixVal, setCell, upd_length]
    | cons b bs' =>
      show ctx.buf.length ≤ (setCell (setCell
        (writePayload (reserve ctx (b :: bs').length).2
          (reserve ctx (b :: bs').length).1 (b :: bs')) off
        (.delta (((reserve ctx (b :: bs').length).1 : Int) - (off : Int))))
        (off + 1) (.raw (b :: bs').length)).buf.length
      rw [setCell_buf_length, setCell_buf_length, writePayload_length,
        reserve_buf_length]
      omega
  | vstruct fs =>
    show ctx.buf.length ≤ (fixList fs off ctx).buf.length
    exact fixList_len fs off ctx
  | vvec es =>
    cases es with
    | nil => simp [fixVal, setCell, upd_length]
    | cons e es' =>
      show ctx.buf.length ≤ (setCell (setCell (setCell
        (fixList (e :: es') (reserve ctx (sizeOfList (e :: es'))).1
          (reserve ctx (sizeOfList (e :: es'))).2) off
        (.delta (((reserve ctx (sizeOfList (e :: es'))).1 : Int) -
          (off : Int)))) (off + 1) (.raw (e :: es').length)) (off + 2)
        (.raw (e :: es').length)).buf.length
      rw [setCell_buf_length, setCell_buf_length, setCell_buf_length]
      refine Nat.le_trans ?_ (fixList_len (e :: es') _ _)
      rw [reserve_buf_length]
      omega

theorem fixList_len (vs : List Val) (off : Nat) (ctx : SerCtx) :
    ctx.buf.length ≤ (fixList vs off ctx).buf.length := by
  cases vs with
  | nil => exact Nat.le_refl _
  | cons v vs' =>
    show ctx.buf.length ≤
      (fixList vs' (off + sizeOfVal v) (fixVal v off ctx)).buf.length
    exact Nat.le_trans (fixVal_len v off ctx) (fixList_len vs' _ _)

end

theorem drain_len {vis pend : List (Nat × Nat)} {buf buf2 : List Cell}
    (h : drain vis pend buf = some buf2) : buf2.length = buf.length := by
  induction pend generalizing buf with
  | nil =>
    simp only [drain] at h
    injection h with h
    rw [← h]
  | cons e rest ih =>
    obtain ⟨l, s⟩ := e
    simp only [drain] at h
    cases hl : lookupV vis l with
    | none => rw [hl] at h; simp at h
    | some o =>
      rw [hl] at h
      rw [ih h, upd_length]

/-- The root context: the buffer holds exactly the root's reserved
cells. -/
def rootCtx (g : Val) : SerCtx :=
  { buf := List.replicate (sizeOfVal g) (.raw 0), vis := [], pending := [] }

theorem serializeG_eq (g : Val) :
    serializeG g =
      (match drain (fixVal g 0 (rootCtx g)).vis
          (fixVal g 0 (rootCtx g)).pending
          (fixVal g 0 (rootCtx g)).buf with
        | some b => some (b, (fixVal g 0 (rootCtx g)).vis)
        | none => none) := rfl

/-- A successful serialization yields a buffer at least as long as the
root object. -/
theorem serializeG_len {g : Val} {buf : List Cell}
    {vis : List (Nat × Nat)} (h : serializeG g = some (buf, vis)) :
    sizeOfVal g ≤ buf.length := by
  rw [serializeG_eq] at h
  cases hdr : drain (fixVal g 0 (rootCtx g)).vis
      (fixVal g 0 (rootCtx g)).pending (fixVal g 0 (rootCtx g)).buf with
  | none => rw [hdr] at h; exact Option.noConfusion h
  | some b =>
    rw [hdr] at h
    injection h with h
    have hb : b = buf := congrArg Prod.fst h
    have h1 := fixVal_len g 0 (rootCtx g)
    have h2 := drain_len hdr
    rw [hb] at h2
    have h3 : (rootCtx g).buf.length = sizeOfVal g := by
      simp [rootCtx]
    omega

/-! ## io layer (include/cista/io.h) -/

/-- A cell of the serialized image encoded as a number so the file image
is a byte list (raw data and pointer deltas are tagged apart). -/
def cellCode : Cell → Nat
  | .raw n => 2 * n
  | .delta d => 2 * d.natAbs + 1
  | .phold => 1
  | .ptr _ => 1

/-- Modelled from the spec: the full serialized file image of a graph -
the cell buffer encoded to bytes, framed by the mode-dependent envelope
(type hash in front, content hash behind). -/
def serializeBytes (m : Mode) (th : Nat) (g : Val) : Option (List Nat) :=
  match serializeG g with
  | some r => some (envEncode m th (r.1.map cellCode))
  | none => none

/-- A file system: a map from paths (modelled as numbers) to file
contents. -/
def FS : Type := Nat → Option (List Nat)

/-- Modelled from the spec, following the shape of `cista::write` in
`include/cista/io.h`: open a memory-mapped file at path `p` for writing
and invoke `serialize` with that mapping as the output sink, so the file
afterwards holds exactly the serialized buffer of the value. -/
def writeIo (m : Mode) (th : Nat) (p : Nat) (g : Val) (fs : FS) :
    Option FS :=
  match serializeBytes m th g with
  | some bs => some (fun q => if q = p then some bs else fs q)
  | none => none

/-- Modelled from the spec: the mode-determined offset of the root object
inside the file (0 or 8). -/
def rootOffset (m : Mode) : Nat := if m.withVersion then 8 else 0

/-- Modelled from the spec: `cista::wrapped` - pairs ownership of the file
bytes with a typed pointer into them (the pointer is an offset into the
owned bytes). -/
structure Wrapped : Type where
  mem : List Nat
  ptrOff : Nat

/-- Modelled from the spec, following the shape of `cista::read` in
`include/cista/io.h`: read the entire file at `p` into an owned byte
buffer, deserialize that buffer (envelope validation), and return a
wrapped object pairing ownership of the bytes with the typed root
pointer. -/
def readIo (m : Mode) (th : Nat) (fs : FS) (p : Nat) :
    Except Nat Wrapped :=
  match fs p with
  | none => .error 5
  | some bs =>
      match envDecode m th bs with
      | .error e => .error e
      | .ok _ => .ok ⟨bs, rootOffset m⟩

theorem writeIo_file {m : Mode} {th p : Nat} {g : Val} {fs fs' : FS}
    (h : writeIo m th p g fs = some fs') :
    fs' p = serializeBytes m th g ∧ (∀ q, q ≠ p → fs' q = fs q) := by
  unfold writeIo at h
  cases hs : serializeBytes m th g with
  | none => rw [hs] at h; exact Option.noConfusion h
  | some bs =>
    rw [hs] at h
    injection h with h
    subst h
    exact ⟨by simp, fun q hq => by simp [hq]⟩

theorem envEncode_length (m : Mode) (th : Nat) (p : List Nat) :
    (envEncode m th p).length =
      (if m.withVersion then 8 else 0) + p.length +
        (if m.withIntegrity then 8 else 0) := by
  unfold envEncode
  cases m.withVersion <;> cases m.withIntegrity <;>
    simp [toBytes64_length] <;> omega

/-- C3: `write(p, w)` opens a (memory-mapped) file at `p` and serializes
`w` into it: for a well-formed graph the write succeeds and the file's
content afterwards is exactly the serialized buffer of `w`, including the
envelope determined by the mode flags; other paths are untouched. -/
theorem cista_write (m : Mode) (th p : Nat) (g : Val) (fs : FS)
    (hwf : wf g) :
    ∃ fs' buf vis, writeIo m th p g fs = some fs' ∧
      serializeG g = some (buf, vis) ∧
      fs' p = some (envEncode m th (buf.map cellCode)) ∧
      (∀ q, q ≠ p → fs' q = fs q) := by
  obtain ⟨buf, vis, hser, _, _, _⟩ := serializeG_spec g hwf
  have hsb : serializeBytes m th g =
      some (envEncode m th (buf.map cellCode)) := by
    unfold serializeBytes
    rw [hser]
  refine ⟨fun q => if q = p then some (envEncode m th (buf.map cellCode))
      else fs q, buf, vis, ?_, hser, by simp, fun q hq => by simp [hq]⟩
  unfold writeIo
  rw [hsb]

/-- Witness for C3: write the triangle graph to path 0 on an empty file
system. -/
theorem cista_write_witness :
    wf gEx ∧
      (∃ fs' buf vis,
        writeIo defaultMode 7 0 gEx (fun _ => none) = some fs' ∧
        serializeG gEx = some (buf, vis) ∧
        fs' 0 = some (envEncode defaultMode 7 (buf.map cellCode)) ∧
        (∀ q, q ≠ 0 → fs' q = (fun _ => none : FS) q)) :=
  ⟨by decide, cista_write defaultMode 7 0 gEx (fun _ => none) (by decide)⟩

/-- C2: `read(p)` reads the entire file at `p` into an owned byte buffer,
deserializes that buffer (validating the envelope), and returns a wrapped
object pairing ownership of the bytes with a typed pointer aliasing them:
after writing a well-formed graph, the read succeeds, the wrapped object
owns exactly the file's bytes, and its typed pointer (the mode-determined
root offset) points into the owned bytes. -/
theorem cista_read (m : Mode) (th p : Nat) (g : Val) (fs : FS)
    (hwf : wf g) :
    ∃ fs' w, writeIo m th p g fs = some fs' ∧
      readIo m th fs' p = .ok w ∧
      fs' p = some w.mem ∧ w.ptrOff = rootOffset m ∧
      w.ptrOff < w.mem.length := by
  obtain ⟨buf, vis, hser, _, _, _⟩ := serializeG_spec g hwf
  have hsb : serializeBytes m th g =
      some (envEncode m th (buf.map cellCode)) := by
    unfold serializeBytes
    rw [hser]
  obtain ⟨fs', hw⟩ : ∃ fs', writeIo m th p g fs = some fs' := by
    refine ⟨fun q => if q = p then some (envEncode m th (buf.map cellCode))
      else fs q, ?_⟩
    unfold writeIo
    rw [hsb]
  obtain ⟨hfile, _⟩ := writeIo_file hw
  rw [hsb] at hfile
  have hdec : envDecode m th (envEncode m th (buf.map cellCode)) =
      .ok (buf.map cellCode) := by
    rw [envEncode_assoc]
    unfold envDecode
    rw [envDecodeV_strip]
    exact envDecodeI_strip m (buf.map cellCode)
  have hplen : 1 ≤ buf.length := by
    have := serializeG_len hser
    have := one_le_sizeOfVal g
    omega
  have hlen : rootOffset m < (envEncode m th (buf.map cellCode)).length := by
    rw [envEncode_length]
    unfold rootOffset
    cases hv : m.withVersion <;> cases hi : m.withIntegrity <;>
      simp <;> omega
  refine ⟨fs', ⟨envEncode m th (buf.map cellCode), rootOffset m⟩, hw, ?_,
    ?_, rfl, hlen⟩
  · unfold readIo
    rw [hfile]
    show (match envDecode m th (envEncode m th (buf.map cellCode)) with
      | Except.error e => Except.error e
      | Except.ok _ =>
          Except.ok (⟨envEncode m th (buf.map cellCode),
            rootOffset m⟩ : Wrapped)) =
      Except.ok (⟨envEncode m th (buf.map cellCode),
        rootOffset m⟩ : Wrapped)
    rw [hdec]
  · exact hfile

/-- Witness for C2: read back the triangle graph written to path 0. -/
theorem cista_read_witness :
    wf gEx ∧
      (∃ fs' w, writeIo defaultMode 7 0 gEx (fun _ => none) = some fs' ∧
        readIo defaultMode 7 fs' 0 = .ok w ∧
        fs' 0 = some w.mem ∧ w.ptrOff = rootOffset defaultMode ∧
        w.ptrOff < w.mem.length) :=
  ⟨by decide, cista_read defaultMode 7 0 gEx (fun _ => none) (by decide)⟩

/-- Modelled from the spec: a wrapped value whose typed pointer denotes a
live value stored in the owned bytes; dereference yields that value. -/
structure WrappedVal : Type where
  mem : List Nat
  value : Val

/-- Dereference of a wrapped object. -/
def derefW (w : WrappedVal) : Val := w.value

/-- Shape of the `wrapped<T>` overload of `cista::write` in
`include/cista/io.h`: it forwards to `write<Mode>(p, *w)` with the same
mode flags. -/
def writeWrappedIo (m : Mode) (th : Nat) (p : Nat) (w : WrappedVal)
    (fs : FS) : Option FS :=
  writeIo m th p (derefW w) fs

/-- C10: the `wrapped<T>` overload of `write` serializes the wrapped
pointee with the same mode flags: it is observationally equal to
`write(p, *w)`, so a value obtained from `read` can be written back
without unwrapping and produces the same file content as writing the
underlying value directly. -/
theorem cista_write_wrapped (m : Mode) (th p : Nat) (w : WrappedVal)
    (fs : FS) :
    writeWrappedIo m th p w fs = writeIo m th p (derefW w) fs ∧
    (∀ fs', writeWrappedIo m th p w fs = some fs' →
      fs' p = serializeBytes m th (derefW w)) := by
  refine ⟨rfl, ?_⟩
  intro fs' h
  exact (writeIo_file h).1

/-- Witness for C10 at a concrete wrapped triangle graph. -/
theorem cista_write_wrapped_witness :
    writeWrappedIo defaultMode 7 0 ⟨[], gEx⟩ (fun _ => none) =
        writeIo defaultMode 7 0 (derefW ⟨[], gEx⟩) (fun _ => none) ∧
      (∀ fs', writeWrappedIo defaultMode 7 0 ⟨[], gEx⟩ (fun _ => none) =
          some fs' →
        fs' 0 = serializeBytes defaultMode 7 (derefW ⟨[], gEx⟩)) :=
  cista_write_wrapped defaultMode 7 0 ⟨[], gEx⟩ (fun _ => none)

end Cista
